import Mathlib

/-!
# Verification of the footnote renumbering engine

A shallow embedding of `renumberFootnotes` from `src/footnote-utils.ts`
(the revision whose line numbers the claims cite), working on documents
represented as `List Char`.  The JavaScript regular expressions are
modelled character by character:

* the reference scan `/\[\^((?:[^\]\\]|\\.)+)\](?!:)/g` becomes
  `scanLabel` / `matchRefAt` / `findRefs`;
* the definition test `/^(\s*)\[\^([^\]]+)\]:\s*(.*)$/` becomes `parseDef`;
* `content.split(/\r?\n/)` becomes `splitLines`;
* `String.prototype.replace` with a global escaped-literal pattern and a
  `(?!:)` lookahead becomes `replaceRefs`;
* `Object.entries` iteration order (array-index-like keys first, in
  ascending numeric order, then the remaining keys in insertion order)
  becomes `jsKeyOrder`;
* the `Math.random().toString(36).substr(2, 9)` placeholder suffixes are
  made explicit as a parameter `draws : Nat → List Char`.

Scanning functions that advance by more than one character per step take
an explicit fuel argument (always instantiated with `length + 1`, which
is sufficient because every step consumes at least one character); this
keeps them structurally recursive and kernel-computable.
-/

/-- Shorthand: the character list of a string literal. -/
def lit (s : String) : List Char := s.data

/-- The ECMAScript line terminators (LF, CR, LS, PS), the characters
excluded by `.` in a regular expression without the `s` flag. -/
def lineTerm (c : Char) : Bool :=
  c = '\n' || c = '\r' || c.toNat = 0x2028 || c.toNat = 0x2029

/-- The ECMAScript `\s` character class (WhiteSpace plus LineTerminator),
which is also exactly the set removed by `String.prototype.trim`:
TAB LF VT FF CR SP NBSP OGHAM-SP, U+2000..U+200A, LS PS NNBSP MMSP
IDEOGRAPHIC-SP ZWNBSP. -/
def isWs (c : Char) : Bool :=
  c = ' ' || c = '\t' || c = '\n' || c = '\r' || c.toNat = 0x0b || c.toNat = 0x0c ||
  c.toNat = 0xa0 || c.toNat = 0x1680 || (0x2000 <= c.toNat && c.toNat <= 0x200a) ||
  c.toNat = 0x2028 || c.toNat = 0x2029 || c.toNat = 0x202f || c.toNat = 0x205f ||
  c.toNat = 0x3000 || c.toNat = 0xfeff

/-- Greedy parse of the label part `((?:[^\]\\]|\\.)+)` of the reference
regex: each atom is a character other than `]` and `\`, or `\` followed by
a character that is not a line terminator.  Returns the consumed label
characters and the unconsumed rest (the chain stops at `]`, at a `\` that
cannot form an atom, or at the end of input). -/
def scanLabel : List Char → List Char × List Char
  | [] => ([], [])
  | c :: rest =>
    if c = ']' then ([], c :: rest)
    else if c = '\\' then
      match rest with
      | [] => ([], [c])
      | c2 :: rest2 =>
        if lineTerm c2 then ([], c :: c2 :: rest2)
        else
          let p := scanLabel rest2
          (c :: c2 :: p.1, p.2)
    else
      let p := scanLabel rest
      (c :: p.1, p.2)

/-- The negative lookahead `(?!:)`. -/
def lookaheadOk : List Char → Bool
  | ':' :: _ => false
  | _ => true

/-- Attempt to match the reference regex `\[\^((?:[^\]\\]|\\.)+)\](?!:)`
at the head of the input.  On success returns the captured label and the
rest of the input after the closing `]`.  Backtracking inside the label
group cannot produce further matches: every earlier atom boundary sits on
a non-`]` character, so the maximal chain is the only candidate. -/
def matchRefAt : List Char → Option (List Char × List Char)
  | c1 :: c2 :: rest =>
    if c1 = '[' ∧ c2 = '^' then
      let p := scanLabel rest
      if p.1 ≠ [] ∧ p.2.head? = some ']' ∧ lookaheadOk p.2.tail then
        some (p.1, p.2.tail)
      else none
    else none
  | _ => none

/-- Fueled global scan for footnote references, in document order; models
repeated `exec` of the global reference regex.  After a match the scan
resumes directly after the match, after a failure it advances one
character. -/
def findRefsF : Nat → List Char → List (List Char)
  | 0, _ => []
  | _ + 1, [] => []
  | fuel + 1, c :: rest =>
    match matchRefAt (c :: rest) with
    | some (lbl, rest3) => lbl :: findRefsF fuel rest3
    | none => findRefsF fuel rest

/-- All reference labels of a document, in order of occurrence. -/
def findRefs (s : List Char) : List (List Char) :=
  findRefsF (s.length + 1) s

/-- Append a label to the accumulator unless it was already seen; models
the `seenLabels` / `orderedLabels` collection loop. -/
def insertUniq (acc : List (List Char)) (l : List Char) : List (List Char) :=
  if l ∈ acc then acc else acc ++ [l]

/-- The distinct labels in order of first appearance. -/
def dedupFirst (ls : List (List Char)) : List (List Char) :=
  ls.foldl insertUniq []

/-- The sequential number of a label: one plus its index in the ordered
list of distinct labels (`labelToSequentialNumber`). -/
def labelNumber (ordered : List (List Char)) (l : List Char) : Option Nat :=
  match ordered.findIdx? (fun x => x = l) with
  | some i => some (i + 1)
  | none => none

/-- Decimal digit character. -/
def digitChar (n : Nat) : Char := Char.ofNat (48 + n % 10)

/-- Fueled accumulator loop for decimal rendering. -/
def natToStrF : Nat → Nat → List Char → List Char
  | 0, _, acc => acc
  | _ + 1, 0, acc => acc
  | fuel + 1, n + 1, acc => natToStrF fuel ((n + 1) / 10) (digitChar (n + 1) :: acc)

/-- Decimal rendering of a natural number, as produced by
`(index + 1).toString()`. -/
def natToStr (n : Nat) : List Char :=
  if n = 0 then ['0'] else natToStrF (n + 1) n []

/-- The character facts needed about decimal digits: not a line
terminator, none of the delimiter characters, and not an underscore. -/
def okDigit (c : Char) : Bool :=
  !lineTerm c && c != '[' && c != ']' && c != '\\' && c != '_'

/-- Split on `/\r?\n/`: every `\n` separates, consuming one directly
preceding `\r`; a lone `\r` stays inside its line. -/
def splitLinesAux : List Char → List Char → List (List Char)
  | [], acc => [acc.reverse]
  | '\n' :: rest, acc => acc.reverse :: splitLinesAux rest []
  | '\r' :: '\n' :: rest, acc => acc.reverse :: splitLinesAux rest []
  | '\r' :: rest, acc => splitLinesAux rest ('\r' :: acc)
  | c :: rest, acc => splitLinesAux rest (c :: acc)

/-- The physical lines of a document (`content.split(/\r?\n/)`). -/
def splitLines (s : List Char) : List (List Char) :=
  splitLinesAux s []

/-- Join a list of lines with a separator (`Array.prototype.join`). -/
def joinSep (sep : List Char) : List (List Char) → List Char
  | [] => []
  | [l] => l
  | l :: ls => l ++ sep ++ joinSep sep ls

/-- Does the document contain the two-character sequence CR LF
(`content.includes`)? -/
def crlfInfix : List Char → Bool
  | [] => false
  | '\r' :: '\n' :: _ => true
  | _ :: rest => crlfInfix rest

/-- The definition-line test `/^(\s*)\[\^([^\]]+)\]:\s*(.*)$/` applied to
one physical line.  Returns the captured indentation, label, and trailing
text; the whitespace between the colon and the text is consumed by the
greedy `\s*`, and the match fails when the remaining text contains a line
terminator (which `.` cannot match and `$` cannot absorb). -/
def parseDef (line : List Char) : Option (List Char × List Char × List Char) :=
  let ind := line.takeWhile isWs
  match line.dropWhile isWs with
  | '[' :: '^' :: r2 =>
    let lbl := r2.takeWhile (fun c => c ≠ ']')
    match r2.dropWhile (fun c => c ≠ ']') with
    | ']' :: ':' :: r4 =>
      if lbl = [] then none
      else
        let text := r4.dropWhile isWs
        if text.any (fun c => lineTerm c) then none
        else some (ind, lbl, text)
    | _ => none
  | _ => none

/-- One collected footnote definition (`footnoteDefinitions` entries). -/
structure FootnoteDef where
  originalLabel : List Char
  newNumber : Nat
  content : List Char
  indentation : List Char
deriving DecidableEq, Repr

/-- Partition the lines into collected live definitions (label has a
sequential number) and the remaining lines (`nonFootnoteLines`), each in
original order.  Orphan definitions and ordinary lines both land in the
second component, exactly as in the source loop. -/
def collectDefs (numOf : List Char → Option Nat) :
    List (List Char) → List FootnoteDef × List (List Char)
  | [] => ([], [])
  | line :: rest =>
    let p := collectDefs numOf rest
    match parseDef line with
    | some (ind, lbl, text) =>
      match numOf lbl with
      | some n => (⟨lbl, n, text, ind⟩ :: p.1, p.2)
      | none => (p.1, line :: p.2)
    | none => (p.1, line :: p.2)

/-- Insert a definition after all entries with a smaller or equal new
number; folding this over the list is a stable sort, matching the ES2019+
stable `Array.prototype.sort` with comparator `parseInt a - parseInt b`. -/
def insertDef (d : FootnoteDef) : List FootnoteDef → List FootnoteDef
  | [] => [d]
  | e :: es =>
    if e.newNumber ≤ d.newNumber then e :: insertDef d es else d :: e :: es

/-- Stable sort of the collected definitions by new number. -/
def sortDefs (ds : List FootnoteDef) : List FootnoteDef :=
  ds.foldl (fun acc d => insertDef d acc) []

/-- Decimal digit test. -/
def isDigit (c : Char) : Bool := 48 ≤ c.toNat && c.toNat ≤ 57

/-- Numeric value of a digit string. -/
def parseNatDigits (l : List Char) : Nat :=
  l.foldl (fun a c => a * 10 + (c.toNat - 48)) 0

/-- Is this string a canonical array-index property key (the decimal form
of some integer `0 ≤ i < 2^32 - 1`)?  Such keys are enumerated first by
`Object.entries`, in ascending numeric order. -/
def isArrayIndexKey (l : List Char) : Bool :=
  !l.isEmpty && l.all isDigit && (l = ['0'] || l.head? ≠ some '0') &&
    parseNatDigits l < 4294967295

/-- Insert into a list sorted by numeric value (ties cannot occur among
distinct canonical digit strings). -/
def insertIdxKey (x : List Char) : List (List Char) → List (List Char)
  | [] => [x]
  | y :: ys =>
    if parseNatDigits y ≤ parseNatDigits x then y :: insertIdxKey x ys
    else x :: y :: ys

/-- `Object.entries` key order for a string-keyed object built by
inserting the given keys in order: array-index-like keys first in
ascending numeric order, then the rest in insertion order. -/
def jsKeyOrder (ls : List (List Char)) : List (List Char) :=
  (ls.filter isArrayIndexKey).foldl (fun acc x => insertIdxKey x acc) [] ++
    ls.filter (fun l => !isArrayIndexKey l)

/-- The literal text `[^label]`. -/
def mkRef (l : List Char) : List Char := '[' :: '^' :: (l ++ [']'])

/-- Computable prefix test. -/
def isPre : List Char → List Char → Bool
  | [], _ => true
  | _ :: _, [] => false
  | a :: as, b :: bs => a = b && isPre as bs

/-- Fueled global replace of `[^lbl]` (not followed by `:`) with
`[^repl]`; after the escaping of metacharacters the compiled pattern
matches the label literally, and replaced text is not rescanned. -/
def replaceRefsF (lbl repl : List Char) : Nat → List Char → List Char
  | 0, s => s
  | _ + 1, [] => []
  | fuel + 1, c :: rest =>
    if isPre (mkRef lbl) (c :: rest) &&
        lookaheadOk ((c :: rest).drop (mkRef lbl).length) then
      mkRef repl ++ replaceRefsF lbl repl fuel ((c :: rest).drop (mkRef lbl).length)
    else c :: replaceRefsF lbl repl fuel rest

/-- Global replace of the reference pattern for one label. -/
def replaceRefs (lbl repl s : List Char) : List Char :=
  replaceRefsF lbl repl (s.length + 1) s

/-- The placeholder text built from one random suffix:
`__TEMP_FOOTNOTE_` ++ suffix ++ `__`. -/
def placeholderOf (s : List Char) : List Char :=
  lit "__TEMP_FOOTNOTE_" ++ s ++ lit "__"

/-- One triple per iteration of the first replacement loop: the label, the
placeholder drawn for it, and its sequential number. -/
def labelPlaceholders (draws : Nat → List Char) (numOf : List Char → Option Nat) :
    List (List Char) → Nat → List (List Char × List Char × Nat)
  | [], _ => []
  | lbl :: rest, i =>
    (lbl, placeholderOf (draws i), (numOf lbl).getD 0) ::
      labelPlaceholders draws numOf rest (i + 1)

/-- First pass: replace each label's references with its placeholder. -/
def pass1 (trips : List (List Char × List Char × Nat)) (s : List Char) : List Char :=
  trips.foldl (fun acc t => replaceRefs t.1 t.2.1 acc) s

/-- Assignment to a JavaScript object property: overwrite in place if the
key exists, otherwise append. -/
def jsObjSet (m : List (List Char × Nat)) (k : List Char) (v : Nat) :
    List (List Char × Nat) :=
  if m.any (fun p => p.1 = k) then
    m.map (fun p => if p.1 = k then (k, v) else p)
  else m ++ [(k, v)]

/-- The `tempPlaceholders` object, in entry order (placeholder keys are
never array-index-like, so `Object.entries` yields insertion order). -/
def tempMap (trips : List (List Char × List Char × Nat)) : List (List Char × Nat) :=
  trips.foldl (fun m t => jsObjSet m t.2.1 t.2.2) []

/-- Second pass: replace each placeholder with its final number. -/
def pass2 (m : List (List Char × Nat)) (s : List Char) : List Char :=
  m.foldl (fun acc p => replaceRefs p.1 (natToStr p.2) acc) s

/-- Is the line blank in the sense of `line.trim() === ""`? -/
def isBlankLine (l : List Char) : Bool := l.all isWs

/-- Number of trailing blank lines (`emptyLinesAtEnd`). -/
def countTrailingBlank (lines : List (List Char)) : Nat :=
  (lines.reverse.takeWhile isBlankLine).length

/-- The output text of one rewritten definition:
`indentation ++ [^newNumber] ++ ": " ++ content`. -/
def defLineOut (d : FootnoteDef) : List Char :=
  d.indentation ++ mkRef (natToStr d.newNumber) ++ (':' :: ' ' :: d.content)

/-- The result record of the engine. -/
structure FootnoteRenumberResult where
  content : List Char
  changed : Bool
  footnoteCount : Nat
deriving DecidableEq, Repr

/-- The footnote renumbering engine (`renumberFootnotes`), with the
`Math.random` placeholder suffixes supplied explicitly: `draws i` is the
suffix drawn in the `i`-th iteration of the first replacement loop. -/
def renumberFootnotes (draws : Nat → List Char) (content : List Char) :
    FootnoteRenumberResult :=
  if content = [] then ⟨[], false, 0⟩
  else
    let orderedLabels := dedupFirst (findRefs content)
    if orderedLabels = [] then ⟨content, false, 0⟩
    else
      let numOf := labelNumber orderedLabels
      let list := splitLines content
      let p := collectDefs numOf list
      let sorted := sortDefs p.1
      let sep := if crlfInfix content then ['\r', '\n'] else ['\n']
      let joined := joinSep sep p.2
      let trips := labelPlaceholders draws numOf (jsKeyOrder orderedLabels) 0
      let s2 := pass2 (tempMap trips) (pass1 trips joined)
      let out :=
        if p.1 = [] then s2
        else
          let t := countTrailingBlank (splitLines s2)
          let padded :=
            if t = 0 then s2 ++ sep ++ sep
            else if t = 1 then s2 ++ sep
            else s2
          padded ++ joinSep sep (sorted.map defLineOut)
      ⟨out, decide (out ≠ content), orderedLabels.length⟩

/-! ## Spec-side definitions

Auxiliary definitions used only in theorem statements and proofs: a
substring test, the simultaneous-substitution reference function of the
specification, a segment decomposition of body text for reasoning about
the two replacement passes, and a structured document family on which the
pipeline is evaluated symbolically. -/

/-- Does `p` occur as a contiguous subsequence of `s`? -/
def infixOf (p : List Char) : List Char → Bool
  | [] => isPre p []
  | c :: rest => isPre p (c :: rest) || infixOf p rest

/-- Modelled from the spec, step 4d: rewrite every reference occurrence,
scanning once left to right with the escaping-aware pattern, replacing
the matched label by its sequential number simultaneously (mapped labels
only), leaving everything else unchanged.  This is the specification's
description of what the two-phase placeholder substitution must compute. -/
def substSimF (numOf : List Char → Option Nat) : Nat → List Char → List Char
  | 0, s => s
  | _ + 1, [] => []
  | fuel + 1, c :: rest =>
    match matchRefAt (c :: rest) with
    | some (lbl, rest3) =>
      (match numOf lbl with
       | some n => mkRef (natToStr n)
       | none => mkRef lbl) ++ substSimF numOf fuel rest3
    | none => c :: substSimF numOf fuel rest

/-- Simultaneous substitution over a whole text. -/
def substSimAll (numOf : List Char → Option Nat) (s : List Char) : List Char :=
  substSimF numOf (s.length + 1) s

/-- A segment of body text: plain text, a reference occurrence `[^l]`, or
a definition-opener occurrence `[^l]:` (excluded by the lookahead). -/
inductive Piece where
  | txt (c : List Char)
  | ref (l : List Char)
  | dref (l : List Char)
deriving DecidableEq, Repr

/-- The text of one segment. -/
def renderP : Piece → List Char
  | .txt c => c
  | .ref l => mkRef l
  | .dref l => mkRef l ++ [':']

/-- The text of a segment list. -/
def renderPs (ps : List Piece) : List Char :=
  (ps.map renderP).flatten

/-- Prepend a text segment, omitting it when empty. -/
def consTxt (c : List Char) (ps : List Piece) : List Piece :=
  if c = [] then ps else .txt c :: ps

/-- A label value that the replacement passes treat atomically: nonempty
and free of `[` and `]`. -/
def lblOkP (l : List Char) : Bool :=
  !l.isEmpty && l.all (fun c => c ≠ '[' && c ≠ ']')

/-- Head of the following rendered text is not a colon (so the lookahead
of a preceding reference succeeds). -/
def nextOkP : List Piece → Bool
  | .txt (c :: _) :: _ => c ≠ ':'
  | _ => true

/-- Wellformedness of a segment list: text segments are nonempty and free
of `[`, labels are atomic, and a reference is never followed directly by
a colon. -/
def piecesOk : List Piece → Bool
  | [] => true
  | .txt c :: rest => !c.isEmpty && c.all (fun x => x ≠ '[') && piecesOk rest
  | .ref l :: rest => lblOkP l && nextOkP rest && piecesOk rest
  | .dref l :: rest => lblOkP l && piecesOk rest

/-- Replace label `y` by `r` on reference segments only. -/
def substPiece (y r : List Char) : Piece → Piece
  | .ref l => .ref (if l = y then r else l)
  | p => p

/-- Sequential application of replacement pairs to one label value. -/
def substLbl (prs : List (List Char × List Char)) (l : List Char) : List Char :=
  prs.foldl (fun cur pr => if cur = pr.1 then pr.2 else cur) l

/-- Apply a label transformation to all reference segments. -/
def mapRefs (g : List Char → List Char) : List Piece → List Piece :=
  List.map (fun p => match p with | .ref l => .ref (g l) | p => p)

/-- A run of text chunks and references:
`refsStr c [(l1, c1), (l2, c2)] = c ++ [^l1] ++ c1 ++ [^l2] ++ c2`. -/
def refsStr (c0 : List Char) : List (List Char × List Char) → List Char
  | [] => c0
  | p :: rest => c0 ++ mkRef p.1 ++ refsStr p.2 rest

/-- A structured document line: ordinary body text interleaved with
references, or a footnote definition line
`ind ++ [^lbl] ++ : ++ ws ++ text` whose trailing text is itself a run of
chunks and references. -/
inductive FLine where
  | norm (c0 : List Char) (ps : List (List Char × List Char))
  | defn (ind : List Char) (lbl : List Char) (ws : List Char)
      (t0 : List Char) (tps : List (List Char × List Char))
deriving DecidableEq, Repr

/-- The text of a structured line. -/
def flineStr : FLine → List Char
  | .norm c0 ps => refsStr c0 ps
  | .defn ind lbl ws t0 tps => ind ++ mkRef lbl ++ ':' :: (ws ++ refsStr t0 tps)

/-- The reference labels contributed by one structured line, in order. -/
def flineRefs : FLine → List (List Char)
  | .norm _ ps => ps.map Prod.fst
  | .defn _ _ _ _ tps => tps.map Prod.fst

/-- All reference labels of a structured document, in document order. -/
def allRefs (lines : List FLine) : List (List Char) :=
  (lines.map flineRefs).flatten

/-- The line separator of a structured document. -/
def famSep (crlf : Bool) : List Char :=
  if crlf then ['\r', '\n'] else ['\n']

/-- The document text of a structured document. -/
def famDoc (crlf : Bool) (lines : List FLine) : List Char :=
  joinSep (famSep crlf) (lines.map flineStr)

/-- A label fit for the structured family: nonempty and free of `[`, `]`,
backslash and line terminators. -/
def cleanLblB (l : List Char) : Bool :=
  !l.isEmpty && l.all (fun c => c ≠ '[' && c ≠ ']' && c ≠ '\\' && !lineTerm c)

/-- A text chunk fit for the structured family: free of `[` and line
terminators. -/
def chunkOkB (c : List Char) : Bool :=
  c.all (fun x => x ≠ '[' && !lineTerm x)

/-- The chunk does not start with a colon. -/
def headNotColon : List Char → Bool
  | ':' :: _ => false
  | _ => true

/-- The chunk does not start with whitespace. -/
def headNotWs : List Char → Bool
  | [] => true
  | c :: _ => !isWs c

/-- Indentation fit for the structured family: whitespace without line
terminators. -/
def wsOkB (w : List Char) : Bool :=
  w.all (fun c => isWs c && !lineTerm c)

/-- Wellformedness of a reference run. -/
def pairsOkB (ps : List (List Char × List Char)) : Bool :=
  ps.all (fun p => cleanLblB p.1 && chunkOkB p.2 && headNotColon p.2)

/-- Wellformedness of one structured line. -/
def flineOkB : FLine → Bool
  | .norm c0 ps => chunkOkB c0 && pairsOkB ps
  | .defn ind lbl ws t0 tps =>
    wsOkB ind && cleanLblB lbl && wsOkB ws && chunkOkB t0 && headNotWs t0 &&
      pairsOkB tps

/-- Wellformedness of a structured document. -/
def famOKB (lines : List FLine) : Bool :=
  lines.all flineOkB

/-- The new text of a label under a numbering. -/
def mapLbl (numOf : List Char → Option Nat) (l : List Char) : List Char :=
  natToStr ((numOf l).getD 0)

/-- The expected output body line for one structured line: references
renumbered in ordinary lines and in orphan definition lines; live
definition lines removed. -/
def famBodyLine (numOf : List Char → Option Nat) : FLine → Option (List Char)
  | .norm c0 ps =>
    some (refsStr c0 (ps.map fun p => (mapLbl numOf p.1, p.2)))
  | .defn ind lbl ws t0 tps =>
    match numOf lbl with
    | some _ => none
    | none =>
      some (ind ++ mkRef lbl ++ ':' ::
        (ws ++ refsStr t0 (tps.map fun p => (mapLbl numOf p.1, p.2))))

/-- The live definitions collected from a structured document. -/
def famDefs (numOf : List Char → Option Nat) : List FLine → List FootnoteDef
  | [] => []
  | .norm _ _ :: rest => famDefs numOf rest
  | .defn ind lbl _ t0 tps :: rest =>
    match numOf lbl with
    | some n => ⟨lbl, n, refsStr t0 tps, ind⟩ :: famDefs numOf rest
    | none => famDefs numOf rest

/-- The separator padding inserted before the appended definitions. -/
def padSep (sep : List Char) (t : Nat) : List Char :=
  if t = 0 then sep ++ sep else if t = 1 then sep else []

/-- The expected full output for a structured document, independent of
the random draws. -/
def famResult (crlf : Bool) (lines : List FLine) : List Char :=
  let numOf := labelNumber (dedupFirst (allRefs lines))
  let body := lines.filterMap (famBodyLine numOf)
  let live := sortDefs (famDefs numOf lines)
  let sep := famSep crlf
  let s2 := joinSep sep body
  if live = [] then s2
  else
    let t := countTrailingBlank (if body.isEmpty then [[]] else body)
    s2 ++ padSep sep t ++ joinSep sep (live.map defLineOut)

/-- Conditions on the random draws consumed while processing `k` labels:
each placeholder is an atomic clean label value, distinct draws, and no
placeholder collides with a document label. -/
def drawsOK (k : Nat) (labels : List (List Char)) (draws : Nat → List Char) : Prop :=
  ∀ i ∈ List.range k,
    cleanLblB (placeholderOf (draws i)) = true ∧
    (∀ j ∈ List.range k, i ≠ j → draws i ≠ draws j) ∧
    (∀ l ∈ labels, placeholderOf (draws i) ≠ l)

instance (k : Nat) (labels : List (List Char)) (draws : Nat → List Char) :
    Decidable (drawsOK k labels draws) :=
  inferInstanceAs (Decidable (∀ i ∈ List.range k,
    cleanLblB (placeholderOf (draws i)) = true ∧
    (∀ j ∈ List.range k, i ≠ j → draws i ≠ draws j) ∧
    (∀ l ∈ labels, placeholderOf (draws i) ≠ l)))

/-- A possible value of `Math.random().toString(36).substr(2, 9)`: at
most nine characters, each a digit or a lowercase latin letter. -/
def validDraw (s : List Char) : Bool :=
  s.length ≤ 9 && s.all (fun c => isDigit c || (97 ≤ c.toNat && c.toNat ≤ 122))

/-- A concrete supply of distinct clean draws for witnesses. -/
def stdDraws (i : Nat) : List Char :=
  'd' :: natToStr i

/-- The numbering of a structured document's labels. -/
def famNumOf (lines : List FLine) : List Char → Option Nat :=
  labelNumber (dedupFirst (allRefs lines))

/-- The segment list of a reference run (without its leading chunk). -/
def refPieces : List (List Char × List Char) → List Piece
  | [] => []
  | p :: rest => .ref p.1 :: consTxt p.2 (refPieces rest)

/-- The segment list of one structured line. -/
def flinePieces : FLine → List Piece
  | .norm c0 ps => consTxt c0 (refPieces ps)
  | .defn ind lbl ws t0 tps =>
    consTxt ind (.dref lbl :: consTxt (ws ++ t0) (refPieces tps))

/-- Is the structured line a live definition under the numbering? -/
def isLiveDef (numOf : List Char → Option Nat) : FLine → Bool
  | .defn _ lbl _ _ _ => (numOf lbl).isSome
  | _ => false

/-- The lines that remain in the body (`nonFootnoteLines`). -/
def keptLines (numOf : List Char → Option Nat) (lines : List FLine) : List FLine :=
  lines.filter (fun l => !isLiveDef numOf l)

/-- The segment list of a joined line list, with the separator as a text
segment between consecutive lines. -/
def catPieces (sep : List Char) : List FLine → List Piece
  | [] => []
  | [l] => flinePieces l
  | l :: rest => flinePieces l ++ .txt sep :: catPieces sep rest

/-- Index of the first occurrence of a label in a list (length of the list
if absent). -/
def posOf (l : List Char) : List (List Char) → Nat
  | [] => 0
  | x :: xs => if x = l then 0 else posOf l xs + 1

/-- Apply a label transformation to the reference runs of one structured
line (the definition label of a `defn` line is left untouched). -/
def substFLine (g : List Char → List Char) : FLine → FLine
  | .norm c0 ps => .norm c0 (ps.map fun p => (g p.1, p.2))
  | .defn ind lbl ws t0 tps => .defn ind lbl ws t0 (tps.map fun p => (g p.1, p.2))

/-- The pattern/replacement pairs of the first replacement pass. -/
def pairsOfTrips (trips : List (List Char × List Char × Nat)) :
    List (List Char × List Char) :=
  trips.map fun t => (t.1, t.2.1)

/-- The pattern/replacement pairs of the second replacement pass. -/
def pairsOfTemp (m : List (List Char × Nat)) : List (List Char × List Char) :=
  m.map fun p => (p.1, natToStr p.2)

/-! ## Basic properties of the scanner -/

theorem cleanLbl_ne_nil {l : List Char} (h : cleanLblB l = true) : l ≠ [] := by
  simp [cleanLblB] at h
  exact h.1

theorem cleanLbl_mem {l : List Char} (h : cleanLblB l = true) :
    ∀ c ∈ l, c ≠ '[' ∧ c ≠ ']' ∧ c ≠ '\\' ∧ lineTerm c = false := by
  simp only [cleanLblB, Bool.and_eq_true, List.all_eq_true, decide_eq_true_eq,
    Bool.not_eq_true'] at h
  intro c hc
  rcases h.2 c hc with ⟨⟨⟨h1, h2⟩, h3⟩, h4⟩
  exact ⟨h1, h2, h3, h4⟩

theorem scanLabel_cons (c : Char) (rest : List Char) :
    scanLabel (c :: rest) =
      if c = ']' then ([], c :: rest)
      else if c = '\\' then
        match rest with
        | [] => ([], [c])
        | c2 :: rest2 =>
          if lineTerm c2 then ([], c :: c2 :: rest2)
          else (c :: c2 :: (scanLabel rest2).1, (scanLabel rest2).2)
      else (c :: (scanLabel rest).1, (scanLabel rest).2) := by
  rw [scanLabel.eq_def]

theorem scanLabel_rb (rest : List Char) : scanLabel (']' :: rest) = ([], ']' :: rest) := by
  rw [scanLabel_cons]
  simp

theorem scanLabel_bs1 : scanLabel ['\\'] = ([], ['\\']) := by
  rw [scanLabel_cons]
  simp

theorem scanLabel_esc (c2 : Char) (rest2 : List Char) :
    scanLabel ('\\' :: c2 :: rest2) =
      if lineTerm c2 then ([], '\\' :: c2 :: rest2)
      else ('\\' :: c2 :: (scanLabel rest2).1, (scanLabel rest2).2) := by
  rw [scanLabel_cons]
  simp

theorem scanLabel_other {c : Char} (rest : List Char) (h1 : c ≠ ']') (h2 : c ≠ '\\') :
    scanLabel (c :: rest) = (c :: (scanLabel rest).1, (scanLabel rest).2) := by
  rw [scanLabel_cons, if_neg h1, if_neg h2]

theorem scanLabel_len : ∀ s : List Char, (scanLabel s).2.length ≤ s.length
  | [] => by simp [scanLabel]
  | c :: rest => by
    by_cases h1 : c = ']'
    · subst h1
      rw [scanLabel_rb]
    · by_cases h2 : c = '\\'
      · subst h2
        cases rest with
        | nil => rw [scanLabel_bs1]
        | cons c2 rest2 =>
          rw [scanLabel_esc]
          by_cases h3 : lineTerm c2 = true
          · rw [if_pos h3]
          · rw [if_neg h3]
            have ih := scanLabel_len rest2
            simp only [List.length_cons]
            omega
      · rw [scanLabel_other rest h1 h2]
        have ih := scanLabel_len rest
        simp only [List.length_cons]
        omega

theorem scanLabel_clean :
    ∀ (l s : List Char), (']' ∉ l) → ('\\' ∉ l) →
      scanLabel (l ++ ']' :: s) = (l, ']' :: s)
  | [], s, _, _ => by
    rw [List.nil_append, scanLabel_rb]
  | c :: l, s, h1, h2 => by
    have hc1 : c ≠ ']' := fun h => h1 (h ▸ List.mem_cons_self c l)
    have hc2 : c ≠ '\\' := fun h => h2 (h ▸ List.mem_cons_self c l)
    have ih := scanLabel_clean l s (fun h => h1 (List.mem_cons_of_mem c h))
      (fun h => h2 (List.mem_cons_of_mem c h))
    rw [List.cons_append, scanLabel_other _ hc1 hc2, ih]

theorem matchRefAt_nil : matchRefAt [] = none := rfl

theorem matchRefAt_one (c : Char) : matchRefAt [c] = none := rfl

theorem matchRefAt_cons2 (c1 c2 : Char) (rest : List Char) :
    matchRefAt (c1 :: c2 :: rest) =
      if c1 = '[' ∧ c2 = '^' then
        if (scanLabel rest).1 ≠ [] ∧ (scanLabel rest).2.head? = some ']' ∧
            lookaheadOk (scanLabel rest).2.tail then
          some ((scanLabel rest).1, (scanLabel rest).2.tail)
        else none
      else none := by
  rw [matchRefAt.eq_def]

theorem matchRefAt_not_lb {c : Char} {s : List Char} (h : c ≠ '[') :
    matchRefAt (c :: s) = none := by
  cases s with
  | nil => rfl
  | cons c2 rest =>
    rw [matchRefAt_cons2]
    rw [if_neg (fun hx => h hx.1)]

theorem matchRefAt_ref {l : List Char} (s : List Char) (hl : cleanLblB l = true)
    (hs : lookaheadOk s = true) : matchRefAt (mkRef l ++ s) = some (l, s) := by
  have hne := cleanLbl_ne_nil hl
  have hsc : scanLabel (l ++ ']' :: s) = (l, ']' :: s) :=
    scanLabel_clean l s (fun h => ((cleanLbl_mem hl _ h).2.1 rfl))
      (fun h => ((cleanLbl_mem hl _ h).2.2.1 rfl))
  have harr : mkRef l ++ s = '[' :: '^' :: (l ++ ']' :: s) := by
    simp [mkRef]
  rw [harr, matchRefAt_cons2, hsc]
  simp [hne, hs]

theorem matchRefAt_defOpen {l : List Char} (s : List Char) (hl : cleanLblB l = true) :
    matchRefAt (mkRef l ++ ':' :: s) = none := by
  have hsc : scanLabel (l ++ ']' :: ':' :: s) = (l, ']' :: ':' :: s) :=
    scanLabel_clean l (':' :: s) (fun h => ((cleanLbl_mem hl _ h).2.1 rfl))
      (fun h => ((cleanLbl_mem hl _ h).2.2.1 rfl))
  have harr : mkRef l ++ ':' :: s = '[' :: '^' :: (l ++ ']' :: ':' :: s) := by
    simp [mkRef]
  rw [harr, matchRefAt_cons2, hsc]
  simp [lookaheadOk]

theorem matchRefAt_length :
    ∀ {s l r : List Char}, matchRefAt s = some (l, r) → r.length < s.length := by
  intro s l r h
  match s with
  | [] => simp [matchRefAt_nil] at h
  | [c] => simp [matchRefAt_one] at h
  | c1 :: c2 :: rest =>
    rw [matchRefAt_cons2] at h
    by_cases hb : c1 = '[' ∧ c2 = '^'
    · rw [if_pos hb] at h
      by_cases hc : (scanLabel rest).1 ≠ [] ∧ (scanLabel rest).2.head? = some ']' ∧
          lookaheadOk (scanLabel rest).2.tail = true
      · rw [if_pos hc] at h
        have hr : r = (scanLabel rest).2.tail := by
          cases h
          rfl
        have hlen := scanLabel_len rest
        have hnn : (scanLabel rest).2 ≠ [] := by
          intro hnil
          rw [hnil] at hc
          simp at hc
        have htl : (scanLabel rest).2.tail.length < (scanLabel rest).2.length := by
          cases hx : (scanLabel rest).2 with
          | nil => exact absurd hx hnn
          | cons a b => simp
        rw [hr]
        simp only [List.length_cons]
        omega
      · rw [if_neg hc] at h
        exact absurd h (by simp)
    · rw [if_neg hb] at h
      exact absurd h (by simp)

theorem findRefsF_fuel :
    ∀ (f1 : Nat), ∀ (f2 : Nat) (s : List Char), s.length < f1 → s.length < f2 →
      findRefsF f1 s = findRefsF f2 s := by
  intro f1
  induction f1 with
  | zero => intro f2 s h1 _; omega
  | succ n ih =>
    intro f2 s h1 h2
    match f2, s with
    | 0, s => omega
    | m + 1, [] => rfl
    | m + 1, c :: rest =>
      simp only [findRefsF]
      cases h : matchRefAt (c :: rest) with
      | none =>
        simp only [List.length_cons] at h1 h2
        exact ih m rest (by omega) (by omega)
      | some lr =>
        obtain ⟨l, r⟩ := lr
        have hlen := matchRefAt_length h
        simp only [List.length_cons] at h1 h2 hlen
        exact congrArg (l :: ·) (ih m r (by omega) (by omega))

theorem findRefs_nil : findRefs [] = [] := rfl

theorem findRefs_cons_none {c : Char} {s : List Char} (h : matchRefAt (c :: s) = none) :
    findRefs (c :: s) = findRefs s := by
  unfold findRefs
  simp only [findRefsF, List.length_cons, h]

theorem findRefs_cons_some {c : Char} {s l r : List Char}
    (h : matchRefAt (c :: s) = some (l, r)) : findRefs (c :: s) = l :: findRefs r := by
  unfold findRefs
  simp only [findRefsF, List.length_cons, h]
  have hlen := matchRefAt_length h
  simp only [List.length_cons] at hlen
  exact congrArg (l :: ·) (findRefsF_fuel _ _ r (by omega) (by omega))

theorem findRefs_skip :
    ∀ {pre s : List Char}, (∀ c ∈ pre, c ≠ '[') → findRefs (pre ++ s) = findRefs s := by
  intro pre
  induction pre with
  | nil => intro s _; rfl
  | cons c p ih =>
    intro s h
    have hc : c ≠ '[' := h c (List.mem_cons_self c p)
    rw [List.cons_append, findRefs_cons_none (matchRefAt_not_lb hc)]
    exact ih (fun x hx => h x (List.mem_cons_of_mem c hx))

theorem findRefs_ref {l : List Char} (s : List Char) (hl : cleanLblB l = true)
    (hs : lookaheadOk s = true) : findRefs (mkRef l ++ s) = l :: findRefs s := by
  have h := matchRefAt_ref s hl hs
  have harr : mkRef l ++ s = '[' :: ('^' :: (l ++ ']' :: s)) := by simp [mkRef]
  rw [harr] at h ⊢
  exact findRefs_cons_some h

theorem findRefs_defOpen {l : List Char} (s : List Char) (hl : cleanLblB l = true) :
    findRefs (mkRef l ++ ':' :: s) = findRefs s := by
  have h := matchRefAt_defOpen s hl
  have harr : mkRef l ++ ':' :: s = '[' :: ('^' :: (l ++ ']' :: ':' :: s)) := by
    simp [mkRef]
  rw [harr] at h ⊢
  rw [findRefs_cons_none h]
  have harr2 : '^' :: (l ++ ']' :: ':' :: s) = ('^' :: (l ++ [']', ':'])) ++ s := by
    simp
  rw [harr2]
  apply findRefs_skip
  intro c hc
  simp only [List.mem_cons, List.mem_append, List.not_mem_nil] at hc
  rcases hc with h1 | h2 | h3
  · subst h1; decide
  · exact (cleanLbl_mem hl c h2).1
  · rcases h3 with h3 | h3 | h3
    · subst h3; decide
    · subst h3; decide
    · cases h3

/-! ## Scanning a structured document -/

theorem chunkOk_mem {c : List Char} (h : chunkOkB c = true) :
    ∀ x ∈ c, x ≠ '[' ∧ lineTerm x = false := by
  simp only [chunkOkB, List.all_eq_true, Bool.and_eq_true, decide_eq_true_eq,
    Bool.not_eq_true'] at h
  exact h

theorem wsOk_mem {w : List Char} (h : wsOkB w = true) :
    ∀ x ∈ w, isWs x = true ∧ lineTerm x = false := by
  simp only [wsOkB, List.all_eq_true, Bool.and_eq_true, Bool.not_eq_true'] at h
  exact h

theorem isWs_not_lb {x : Char} (h : isWs x = true) : x ≠ '[' := by
  intro he
  subst he
  simp [isWs] at h

theorem pairsOk_cons {p : List Char × List Char} {ps : List (List Char × List Char)}
    (h : pairsOkB (p :: ps) = true) :
    cleanLblB p.1 = true ∧ chunkOkB p.2 = true ∧ headNotColon p.2 = true ∧
      pairsOkB ps = true := by
  simp only [pairsOkB, List.all_cons, Bool.and_eq_true] at h
  exact ⟨h.1.1.1, h.1.1.2, h.1.2, by simpa [pairsOkB] using h.2⟩

theorem lookaheadOk_nil : lookaheadOk [] = true := rfl

theorem lookaheadOk_cons {c : Char} (s : List Char) (h : c ≠ ':') :
    lookaheadOk (c :: s) = true := by
  rw [lookaheadOk.eq_def]
  cases hx : c :: s with
  | nil => rfl
  | cons a b =>
    injection hx with hx1 hx2
    subst hx1
    split
    · rename_i heq
      injection heq with he1
      exact absurd he1 h
    · rfl

theorem headNotColon_eq (s : List Char) : headNotColon s = lookaheadOk s := by
  cases s with
  | nil => rfl
  | cons c r =>
    by_cases h : c = ':'
    · subst h; rfl
    · rw [lookaheadOk_cons r h]
      rw [headNotColon.eq_def]
      split
      · rename_i heq
        injection heq with he1
        exact absurd he1 h
      · rfl

theorem lookaheadOk_refsStr {ch : List Char} (ps : List (List Char × List Char))
    (tail : List Char) (hch : headNotColon ch = true) (ht : lookaheadOk tail = true) :
    lookaheadOk (refsStr ch ps ++ tail) = true := by
  cases ch with
  | cons c r =>
    have hc : c ≠ ':' := by
      intro he
      subst he
      simp [headNotColon] at hch
    cases ps with
    | nil => exact lookaheadOk_cons _ hc
    | cons p rest => exact lookaheadOk_cons _ hc
  | nil =>
    cases ps with
    | nil => simpa [refsStr] using ht
    | cons p rest =>
      have : refsStr [] (p :: rest) ++ tail =
          '[' :: ('^' :: (p.1 ++ [']']) ++ (refsStr p.2 rest ++ tail)) := by
        simp [refsStr, mkRef]
      rw [this]
      exact lookaheadOk_cons _ (by decide)

theorem findRefs_refsStr :
    ∀ (ps : List (List Char × List Char)) (ch tail : List Char),
      chunkOkB ch = true → pairsOkB ps = true → lookaheadOk tail = true →
      findRefs (refsStr ch ps ++ tail) = ps.map Prod.fst ++ findRefs tail
  | [], ch, tail, hch, _, _ => by
    simp only [refsStr, List.map_nil, List.nil_append]
    exact findRefs_skip (fun c hc => (chunkOk_mem hch c hc).1)
  | p :: rest, ch, tail, hch, hps, ht => by
    obtain ⟨hl, hc2, hn2, hrest⟩ := pairsOk_cons hps
    have harr : refsStr ch (p :: rest) ++ tail =
        ch ++ (mkRef p.1 ++ (refsStr p.2 rest ++ tail)) := by
      simp [refsStr]
    rw [harr, findRefs_skip (fun c hc => (chunkOk_mem hch c hc).1)]
    rw [findRefs_ref _ hl (lookaheadOk_refsStr rest tail hn2 ht)]
    rw [findRefs_refsStr rest p.2 tail hc2 hrest ht]
    simp

theorem flineOk_norm {c0 : List Char} {ps : List (List Char × List Char)}
    (h : flineOkB (.norm c0 ps) = true) : chunkOkB c0 = true ∧ pairsOkB ps = true := by
  simpa [flineOkB, Bool.and_eq_true] using h

theorem flineOk_defn {ind lbl ws t0 : List Char} {tps : List (List Char × List Char)}
    (h : flineOkB (.defn ind lbl ws t0 tps) = true) :
    wsOkB ind = true ∧ cleanLblB lbl = true ∧ wsOkB ws = true ∧ chunkOkB t0 = true ∧
      headNotWs t0 = true ∧ pairsOkB tps = true := by
  simpa [flineOkB, Bool.and_eq_true, and_assoc] using h

theorem findRefs_fline (fl : FLine) (tail : List Char) (h : flineOkB fl = true)
    (ht : lookaheadOk tail = true) :
    findRefs (flineStr fl ++ tail) = flineRefs fl ++ findRefs tail := by
  cases fl with
  | norm c0 ps =>
    obtain ⟨h1, h2⟩ := flineOk_norm h
    exact findRefs_refsStr ps c0 tail h1 h2 ht
  | defn ind lbl ws t0 tps =>
    obtain ⟨h1, h2, h3, h4, _, h6⟩ := flineOk_defn h
    have harr : flineStr (.defn ind lbl ws t0 tps) ++ tail =
        ind ++ (mkRef lbl ++ ':' :: (ws ++ (refsStr t0 tps ++ tail))) := by
      simp [flineStr]
    rw [harr]
    rw [findRefs_skip (fun c hc => isWs_not_lb (wsOk_mem h1 c hc).1)]
    rw [findRefs_defOpen _ h2]
    rw [findRefs_skip (fun c hc => isWs_not_lb (wsOk_mem h3 c hc).1)]
    rw [findRefs_refsStr tps t0 tail h4 h6 ht]
    simp [flineRefs]

theorem joinSep_nil (sep : List Char) : joinSep sep [] = [] := rfl

theorem joinSep_single (sep l : List Char) : joinSep sep [l] = l := rfl

theorem joinSep_cons2 (sep a b : List Char) (rest : List (List Char)) :
    joinSep sep (a :: b :: rest) = a ++ sep ++ joinSep sep (b :: rest) := by
  rw [joinSep.eq_def]

theorem lookaheadOk_sep (crlf : Bool) (x : List Char) :
    lookaheadOk (famSep crlf ++ x) = true := by
  cases crlf <;> exact lookaheadOk_cons _ (by decide)

theorem sep_not_lb (crlf : Bool) : ∀ c ∈ famSep crlf, c ≠ '[' := by
  cases crlf <;> (intro c hc; simp [famSep] at hc) <;>
    first
      | (subst hc; decide)
      | (rcases hc with h | h <;> (subst h; decide))

theorem findRefs_famDoc :
    ∀ (crlf : Bool) (lines : List FLine), famOKB lines = true →
      findRefs (famDoc crlf lines) = allRefs lines
  | _, [], _ => rfl
  | crlf, [l], h => by
    have hl : flineOkB l = true := by
      simpa [famOKB] using h
    have : famDoc crlf [l] = flineStr l ++ [] := by
      simp [famDoc, joinSep_single]
    rw [this, findRefs_fline l [] hl lookaheadOk_nil]
    simp [allRefs, findRefs_nil]
  | crlf, l :: l2 :: rest, h => by
    have hl : flineOkB l = true := by
      simp [famOKB, List.all_cons, Bool.and_eq_true] at h
      exact h.1
    have hrest : famOKB (l2 :: rest) = true := by
      simp only [famOKB, List.all_cons, Bool.and_eq_true] at h ⊢
      exact h.2
    have harr : famDoc crlf (l :: l2 :: rest) =
        flineStr l ++ (famSep crlf ++ famDoc crlf (l2 :: rest)) := by
      simp only [famDoc, List.map_cons]
      rw [joinSep_cons2]
      simp
    rw [harr]
    rw [findRefs_fline l _ hl (lookaheadOk_sep crlf _)]
    rw [findRefs_skip (sep_not_lb crlf)]
    rw [findRefs_famDoc crlf (l2 :: rest) hrest]
    simp [allRefs]

/-! ## Splitting and joining lines -/

theorem splitAux_nil (acc : List Char) : splitLinesAux [] acc = [acc.reverse] := rfl

theorem splitAux_lf (rest acc : List Char) :
    splitLinesAux ('\n' :: rest) acc = acc.reverse :: splitLinesAux rest [] := by
  rw [splitLinesAux.eq_def]
  rfl

theorem splitAux_crlf (rest acc : List Char) :
    splitLinesAux ('\r' :: '\n' :: rest) acc = acc.reverse :: splitLinesAux rest [] := by
  rw [splitLinesAux.eq_def]
  rfl

theorem splitAux_other {c : Char} (rest acc : List Char) (h1 : c ≠ '\n') (h2 : c ≠ '\r') :
    splitLinesAux (c :: rest) acc = splitLinesAux rest (c :: acc) := by
  rw [splitLinesAux.eq_def]
  split
  · rename_i heq
    simp at heq
  · rename_i heq
    simp only [List.cons.injEq] at heq
    exact absurd heq.1 h1
  · rename_i heq
    simp only [List.cons.injEq] at heq
    exact absurd heq.1 h2
  · rename_i heq
    simp only [List.cons.injEq] at heq
    exact absurd heq.1 h2
  · rename_i heq
    simp only [List.cons.injEq] at heq
    obtain ⟨e1, e2⟩ := heq
    subst e1
    subst e2
    rfl

theorem splitAux_clean :
    ∀ (l : List Char) (s acc : List Char), (∀ c ∈ l, c ≠ '\n' ∧ c ≠ '\r') →
      splitLinesAux (l ++ s) acc = splitLinesAux s (l.reverse ++ acc)
  | [], s, acc, _ => by simp
  | c :: l, s, acc, h => by
    have hc := h c (List.mem_cons_self c l)
    rw [List.cons_append, splitAux_other _ _ hc.1 hc.2]
    rw [splitAux_clean l s (c :: acc) (fun x hx => h x (List.mem_cons_of_mem c hx))]
    simp

theorem splitLines_joinSep (crlf : Bool) :
    ∀ lines : List (List Char), lines ≠ [] →
      (∀ line ∈ lines, ∀ c ∈ line, c ≠ '\n' ∧ c ≠ '\r') →
      splitLines (joinSep (famSep crlf) lines) = lines
  | [], h, _ => absurd rfl h
  | [l], _, hc => by
    unfold splitLines
    have h2 := splitAux_clean l [] [] (hc l (List.mem_cons_self l []))
    rw [List.append_nil] at h2
    rw [joinSep_single, h2]
    simp [splitAux_nil]
  | l :: l2 :: rest, _, hc => by
    unfold splitLines
    rw [joinSep_cons2, List.append_assoc,
      splitAux_clean l _ [] (hc l (List.mem_cons_self l _))]
    have hrec := splitLines_joinSep crlf (l2 :: rest) (by simp)
      (fun line hl => hc line (List.mem_cons_of_mem l hl))
    cases crlf with
    | false =>
      show splitLinesAux ('\n' :: joinSep _ (l2 :: rest)) _ = _
      rw [splitAux_lf]
      simp only [List.append_nil, List.reverse_reverse]
      rw [show splitLinesAux (joinSep (famSep false) (l2 :: rest)) [] =
        splitLines (joinSep (famSep false) (l2 :: rest)) from rfl, hrec]
    | true =>
      show splitLinesAux ('\r' :: '\n' :: joinSep _ (l2 :: rest)) _ = _
      rw [splitAux_crlf]
      simp only [List.append_nil, List.reverse_reverse]
      rw [show splitLinesAux (joinSep (famSep true) (l2 :: rest)) [] =
        splitLines (joinSep (famSep true) (l2 :: rest)) from rfl, hrec]

theorem lineTerm_false_ne {c : Char} (h : lineTerm c = false) : c ≠ '\n' ∧ c ≠ '\r' := by
  constructor <;> intro he <;> subst he <;> simp [lineTerm] at h

theorem mem_mkRef {x : Char} {l : List Char} (h : x ∈ mkRef l) :
    x = '[' ∨ x = '^' ∨ x = ']' ∨ x ∈ l := by
  simp only [mkRef, List.mem_cons, List.mem_append, List.mem_singleton] at h
  tauto

theorem mem_refsStr :
    ∀ {x : Char} {c0 : List Char} {ps : List (List Char × List Char)},
      x ∈ refsStr c0 ps → x ∈ c0 ∨ ∃ p ∈ ps, x ∈ mkRef p.1 ∨ x ∈ p.2
  | x, c0, [], h => by
    left
    simpa [refsStr] using h
  | x, c0, p :: rest, h => by
    simp only [refsStr, List.mem_append] at h
    rcases h with (h | h) | h
    · exact Or.inl h
    · exact Or.inr ⟨p, List.mem_cons_self p rest, Or.inl h⟩
    · rcases mem_refsStr h with h2 | ⟨q, hq, hx⟩
      · exact Or.inr ⟨p, List.mem_cons_self p rest, Or.inr h2⟩
      · exact Or.inr ⟨q, List.mem_cons_of_mem p hq, hx⟩

theorem refsStr_clean {c0 : List Char} {ps : List (List Char × List Char)}
    (h0 : chunkOkB c0 = true) (hps : pairsOkB ps = true) :
    ∀ x ∈ refsStr c0 ps, x ≠ '\n' ∧ x ≠ '\r' := by
  intro x hx
  rcases mem_refsStr hx with h | ⟨p, hp, hm | hm⟩
  · exact lineTerm_false_ne (chunkOk_mem h0 x h).2
  · have hcl : cleanLblB p.1 = true := by
      simp only [pairsOkB, List.all_eq_true, Bool.and_eq_true] at hps
      exact (hps p hp).1.1
    rcases mem_mkRef hm with h1 | h1 | h1 | h1 <;>
      first
        | (subst h1; exact ⟨by decide, by decide⟩)
        | exact lineTerm_false_ne (cleanLbl_mem hcl x h1).2.2.2
  · have hck : chunkOkB p.2 = true := by
      simp only [pairsOkB, List.all_eq_true, Bool.and_eq_true] at hps
      exact (hps p hp).1.2
    exact lineTerm_false_ne (chunkOk_mem hck x hm).2

theorem flineStr_clean {fl : FLine} (h : flineOkB fl = true) :
    ∀ c ∈ flineStr fl, c ≠ '\n' ∧ c ≠ '\r' := by
  cases fl with
  | norm c0 ps =>
    obtain ⟨h1, h2⟩ := flineOk_norm h
    exact refsStr_clean h1 h2
  | defn ind lbl ws t0 tps =>
    obtain ⟨h1, h2, h3, h4, _, h6⟩ := flineOk_defn h
    intro c hc
    simp only [flineStr, List.mem_append, List.mem_cons] at hc
    rcases hc with (hc | hc) | hc | hc | hc
    · exact lineTerm_false_ne (wsOk_mem h1 c hc).2
    · rcases mem_mkRef hc with hx | hx | hx | hx <;>
        first
          | (subst hx; exact ⟨by decide, by decide⟩)
          | exact lineTerm_false_ne (cleanLbl_mem h2 c hx).2.2.2
    · subst hc
      exact ⟨by decide, by decide⟩
    · exact lineTerm_false_ne (wsOk_mem h3 c hc).2
    · exact refsStr_clean h4 h6 c hc

/-! ## Separator selection -/

theorem crlfInfix_crlf (s : List Char) : crlfInfix ('\r' :: '\n' :: s) = true := by
  rw [crlfInfix.eq_def]
  rfl

theorem crlfInfix_cons_of {c : Char} {s : List Char} (h : crlfInfix s = true) :
    crlfInfix (c :: s) = true := by
  rw [crlfInfix.eq_def]
  split
  · rename_i heq
    simp at heq
  · rfl
  · rename_i heq
    injection heq with e1 e2
    rw [e2] at h
    exact h

theorem crlfInfix_append_right {s : List Char} (pre : List Char)
    (h : crlfInfix s = true) : crlfInfix (pre ++ s) = true := by
  induction pre with
  | nil => simpa using h
  | cons c p ih => exact crlfInfix_cons_of ih

theorem crlfInfix_none : ∀ s : List Char, (∀ c ∈ s, c ≠ '\r') → crlfInfix s = false
  | [], _ => rfl
  | c :: rest, h => by
    rw [crlfInfix.eq_def]
    split
    · rename_i heq
      simp at heq
    · rename_i heq
      injection heq with e1 e2
      exact absurd e1 (h c (List.mem_cons_self c rest))
    · rename_i heq
      injection heq with e1 e2
      rw [← e2]
      exact crlfInfix_none rest (fun x hx => h x (List.mem_cons_of_mem c hx))

theorem mem_joinSep {c : Char} {sep : List Char} :
    ∀ {ls : List (List Char)}, c ∈ joinSep sep ls → c ∈ sep ∨ ∃ l ∈ ls, c ∈ l
  | [], h => by simp [joinSep_nil] at h
  | [l], h => by
    rw [joinSep_single] at h
    exact Or.inr ⟨l, List.mem_cons_self l [], h⟩
  | l :: l2 :: rest, h => by
    rw [joinSep_cons2] at h
    simp only [List.mem_append] at h
    rcases h with (h | h) | h
    · exact Or.inr ⟨l, List.mem_cons_self l _, h⟩
    · exact Or.inl h
    · rcases mem_joinSep h with h2 | ⟨x, hx, hc⟩
      · exact Or.inl h2
      · exact Or.inr ⟨x, List.mem_cons_of_mem l hx, hc⟩

theorem crlfInfix_famDoc_false {lines : List FLine} (h : famOKB lines = true) :
    crlfInfix (famDoc false lines) = false := by
  apply crlfInfix_none
  intro c hc
  rcases mem_joinSep hc with hs | ⟨l, hl, hcl⟩
  · simp only [famSep, if_neg (Bool.false_ne_true ∘ id)] at hs
    simp only [List.mem_singleton] at hs
    subst hs
    decide
  · obtain ⟨fl, hfl, rfl⟩ := List.mem_map.mp hl
    have : flineOkB fl = true := by
      simp only [famOKB, List.all_eq_true] at h
      exact h fl hfl
    exact (flineStr_clean this c hcl).2

theorem crlfInfix_famDoc_true (l1 l2 : FLine) (rest : List FLine) :
    crlfInfix (famDoc true (l1 :: l2 :: rest)) = true := by
  unfold famDoc
  simp only [List.map_cons]
  rw [joinSep_cons2, List.append_assoc]
  apply crlfInfix_append_right
  exact crlfInfix_crlf _

/-! ## Classifying structured lines -/

theorem dropWhile_head_false {p : Char → Bool} :
    ∀ {l : List Char} {d : Char} {R : List Char}, l.dropWhile p = d :: R → p d = false
  | [], d, R, h => by simp at h
  | c :: l, d, R, h => by
    by_cases hc : p c
    · rw [List.dropWhile_cons_of_pos hc] at h
      exact dropWhile_head_false h
    · rw [List.dropWhile_cons_of_neg hc] at h
      injection h with e1 _
      rw [← e1]
      exact Bool.not_eq_true _ ▸ (by simpa using hc)

theorem dropWhile_append_all {p : Char → Bool} :
    ∀ (a : List Char) (b : List Char), (∀ x ∈ a, p x = true) →
      (a ++ b).dropWhile p = b.dropWhile p
  | [], b, _ => rfl
  | c :: a, b, h => by
    rw [List.cons_append, List.dropWhile_cons_of_pos (h c (List.mem_cons_self c a))]
    exact dropWhile_append_all a b (fun x hx => h x (List.mem_cons_of_mem c hx))

theorem takeWhile_append_stop {p : Char → Bool} :
    ∀ (a : List Char) {d : Char} (R : List Char), (∀ x ∈ a, p x = true) → p d = false →
      (a ++ d :: R).takeWhile p = a ∧ (a ++ d :: R).dropWhile p = d :: R
  | [], d, R, _, hd => by
    constructor
    · exact List.takeWhile_cons_of_neg (by simp [hd])
    · exact List.dropWhile_cons_of_neg (by simp [hd])
  | c :: a, d, R, h, hd => by
    have hc := h c (List.mem_cons_self c a)
    have ih := takeWhile_append_stop a R (fun x hx => h x (List.mem_cons_of_mem c hx)) hd
    constructor
    · rw [List.cons_append, List.takeWhile_cons_of_pos hc, ih.1]
    · rw [List.cons_append, List.dropWhile_cons_of_pos hc, ih.2]

theorem parseDef_shape_short {line : List Char} (h : line.dropWhile isWs = []) :
    parseDef line = none := by
  simp only [parseDef, h]

theorem parseDef_shape_nonlb {line : List Char} {d : Char} {R : List Char}
    (h : line.dropWhile isWs = d :: R) (hd : d ≠ '[') : parseDef line = none := by
  simp only [parseDef, h]
  split
  · rename_i heq
    injection heq with e1 _
    exact absurd e1 hd
  · rfl

theorem takeWhile_rb (l X : List Char) (h : ']' ∉ l) :
    (l ++ ']' :: X).takeWhile (fun c => decide (c ≠ ']')) = l ∧
      (l ++ ']' :: X).dropWhile (fun c => decide (c ≠ ']')) = ']' :: X := by
  apply takeWhile_append_stop
  · intro x hx
    simp only [decide_eq_true_eq]
    exact fun he => h (he ▸ hx)
  · simp

theorem parseDef_atRef {w l X : List Char} (hw : ∀ x ∈ w, isWs x = true)
    (hl : cleanLblB l = true) (hX : headNotColon X = true) :
    parseDef (w ++ (mkRef l ++ X)) = none := by
  have harr : w ++ (mkRef l ++ X) = w ++ ('[' :: '^' :: (l ++ ']' :: X)) := by
    simp [mkRef]
  rw [harr]
  have hdrop : (w ++ ('[' :: '^' :: (l ++ ']' :: X))).dropWhile isWs =
      '[' :: '^' :: (l ++ ']' :: X) := by
    rw [dropWhile_append_all w _ hw]
    exact List.dropWhile_cons_of_neg (by decide)
  have hrb := (takeWhile_rb l X (fun hm => (cleanLbl_mem hl _ hm).2.1 rfl)).2
  simp only [parseDef, hdrop, hrb]
  cases X with
  | nil => rfl
  | cons x X2 =>
    by_cases hx : x = ':'
    · subst hx
      simp [headNotColon] at hX
    · split
      · rename_i heq
        injection heq with _ e2
        injection e2 with e3 _
        exact absurd e3 hx
      · rfl

theorem refsStr_cons_head (c : Char) (c0 : List Char) (ps : List (List Char × List Char)) :
    refsStr (c :: c0) ps = c :: refsStr c0 ps := by
  cases ps <;> simp [refsStr]

theorem refsStr_nil_cons (p : List Char × List Char) (rest : List (List Char × List Char)) :
    refsStr [] (p :: rest) = '[' :: ('^' :: (p.1 ++ [']']) ++ refsStr p.2 rest) := by
  simp [refsStr, mkRef]

theorem dropWhile_ws_refsStr {t0 : List Char} {tps : List (List Char × List Char)}
    (h : headNotWs t0 = true) :
    (refsStr t0 tps).dropWhile isWs = refsStr t0 tps := by
  cases t0 with
  | nil =>
    cases tps with
    | nil => rfl
    | cons p rest =>
      rw [refsStr_nil_cons]
      exact List.dropWhile_cons_of_neg (by decide)
  | cons c t0m =>
    have hns : isWs c = false := by
      simpa [headNotWs, Bool.not_eq_true'] using h
    rw [refsStr_cons_head]
    exact List.dropWhile_cons_of_neg (by simp [hns])

theorem refsStr_no_lineTerm {t0 : List Char} {tps : List (List Char × List Char)}
    (h4 : chunkOkB t0 = true) (h6 : pairsOkB tps = true) :
    ((refsStr t0 tps).any (fun c => lineTerm c)) = false := by
  rw [List.any_eq_false]
  intro x hx
  rcases mem_refsStr hx with h | ⟨p, hp, hm | hm⟩
  · simp [(chunkOk_mem h4 x h).2]
  · have hcl : cleanLblB p.1 = true := by
      simp only [pairsOkB, List.all_eq_true, Bool.and_eq_true] at h6
      exact (h6 p hp).1.1
    rcases mem_mkRef hm with h1 | h1 | h1 | h1 <;>
      first
        | (subst h1; decide)
        | simp [(cleanLbl_mem hcl x h1).2.2.2]
  · have hck : chunkOkB p.2 = true := by
      simp only [pairsOkB, List.all_eq_true, Bool.and_eq_true] at h6
      exact (h6 p hp).1.2
    simp [(chunkOk_mem hck x hm).2]

theorem parseDef_defline {ind lbl ws t0 : List Char} {tps : List (List Char × List Char)}
    (h1 : wsOkB ind = true) (h2 : cleanLblB lbl = true) (h3 : wsOkB ws = true)
    (h4 : chunkOkB t0 = true) (h5 : headNotWs t0 = true) (h6 : pairsOkB tps = true) :
    parseDef (flineStr (.defn ind lbl ws t0 tps)) =
      some (ind, lbl, refsStr t0 tps) := by
  have hind : ∀ x ∈ ind, isWs x = true := fun x hx => (wsOk_mem h1 x hx).1
  have harr : flineStr (.defn ind lbl ws t0 tps) =
      ind ++ ('[' :: '^' :: (lbl ++ ']' :: ':' :: (ws ++ refsStr t0 tps))) := by
    simp [flineStr, mkRef]
  have hstop := takeWhile_append_stop ind
    ('^' :: (lbl ++ ']' :: ':' :: (ws ++ refsStr t0 tps))) hind
    (show isWs '[' = false by decide)
  have hrb := takeWhile_rb lbl (':' :: (ws ++ refsStr t0 tps))
    (fun hm => (cleanLbl_mem h2 _ hm).2.1 rfl)
  have htext : (ws ++ refsStr t0 tps).dropWhile isWs = refsStr t0 tps := by
    rw [dropWhile_append_all ws _ (fun x hx => (wsOk_mem h3 x hx).1)]
    exact dropWhile_ws_refsStr h5
  rw [harr]
  simp only [parseDef, hstop.1, hstop.2, hrb.1, hrb.2]
  rw [if_neg (cleanLbl_ne_nil h2)]
  simp only [htext, refsStr_no_lineTerm h4 h6]
  simp

theorem refsStr_split (c0 : List Char) (ps : List (List Char × List Char)) :
    refsStr c0 ps = c0 ++ refsStr [] ps := by
  cases ps <;> simp [refsStr]

theorem headNotColon_refsStr {ch : List Char} (ps : List (List Char × List Char))
    (hch : headNotColon ch = true) : headNotColon (refsStr ch ps) = true := by
  rw [headNotColon_eq]
  have := lookaheadOk_refsStr ps [] hch lookaheadOk_nil
  simpa using this

theorem parseDef_norm_none {c0 : List Char} {ps : List (List Char × List Char)}
    (h0 : chunkOkB c0 = true) (hps : pairsOkB ps = true) :
    parseDef (flineStr (.norm c0 ps)) = none := by
  show parseDef (refsStr c0 ps) = none
  cases hD : c0.dropWhile isWs with
  | cons d R =>
    have hdfalse : isWs d = false := dropWhile_head_false hD
    have hdm : d ∈ c0 := (@List.dropWhile_sublist _ c0 isWs).mem
      (hD ▸ List.mem_cons_self d R)
    have hd : d ≠ '[' := (chunkOk_mem h0 d hdm).1
    have hshape : (refsStr c0 ps).dropWhile isWs = d :: (R ++ refsStr [] ps) := by
      rw [refsStr_split]
      conv_lhs => rw [← List.takeWhile_append_dropWhile isWs c0]
      rw [List.append_assoc,
        dropWhile_append_all _ _ (fun x hx => List.mem_takeWhile_imp hx), hD,
        List.cons_append, List.dropWhile_cons_of_neg (by simp [hdfalse])]
    exact parseDef_shape_nonlb hshape hd
  | nil =>
    have hallws : ∀ x ∈ c0, isWs x = true := List.dropWhile_eq_nil_iff.mp hD
    cases ps with
    | nil =>
      apply parseDef_shape_short
      show (refsStr c0 []).dropWhile isWs = []
      simpa [refsStr] using hD
    | cons p rest =>
      obtain ⟨hl, hc2, hn2, hrest⟩ := pairsOk_cons hps
      have harr : refsStr c0 (p :: rest) = c0 ++ (mkRef p.1 ++ refsStr p.2 rest) := by
        simp [refsStr]
      rw [harr]
      exact parseDef_atRef hallws hl (headNotColon_refsStr rest hn2)

theorem famOK_cons {fl : FLine} {rest : List FLine} (h : famOKB (fl :: rest) = true) :
    flineOkB fl = true ∧ famOKB rest = true := by
  simpa [famOKB, List.all_cons, Bool.and_eq_true] using h

theorem collectDefs_fam (numOf : List Char → Option Nat) :
    ∀ lines : List FLine, famOKB lines = true →
      collectDefs numOf (lines.map flineStr) =
        (famDefs numOf lines, (keptLines numOf lines).map flineStr)
  | [], _ => rfl
  | fl :: rest, h => by
    obtain ⟨hfl, hrest⟩ := famOK_cons h
    have ih := collectDefs_fam numOf rest hrest
    simp only [List.map_cons]
    cases fl with
    | norm c0 ps =>
      obtain ⟨h1, h2⟩ := flineOk_norm hfl
      simp only [collectDefs, ih, parseDef_norm_none h1 h2]
      simp [famDefs, keptLines, isLiveDef, List.filter_cons]
    | defn ind lbl ws t0 tps =>
      obtain ⟨h1, h2, h3, h4, h5, h6⟩ := flineOk_defn hfl
      simp only [collectDefs, ih, parseDef_defline h1 h2 h3 h4 h5 h6]
      cases hnum : numOf lbl with
      | some n =>
        simp [famDefs, hnum, keptLines, isLiveDef, List.filter_cons]
      | none =>
        simp [famDefs, hnum, keptLines, isLiveDef, List.filter_cons]

/-! ## The replacement pass on one label -/

theorem isPre_append_self : ∀ (p s : List Char), isPre p (p ++ s) = true
  | [], _ => rfl
  | a :: p, s => by
    simp [isPre, isPre_append_self p s]

theorem isPre_head_false {a b : Char} {as bs : List Char} (h : a ≠ b) :
    isPre (a :: as) (b :: bs) = false := by
  simp [isPre, h]

theorem isPre_close : ∀ (y l s : List Char), ']' ∉ y → ']' ∉ l →
    (isPre (y ++ [']']) (l ++ ']' :: s) = true ↔ y = l)
  | [], [], s, _, _ => by simp [isPre]
  | [], c :: lm, s, _, hl => by
    have hc : c ≠ ']' := fun he => hl (he ▸ List.mem_cons_self c lm)
    simp only [List.nil_append, List.cons_append, isPre, Bool.and_eq_true,
      decide_eq_true_eq]
    constructor
    · rintro ⟨he, _⟩
      exact absurd he.symm hc
    · intro he
      exact absurd he (by simp)
  | a :: ym, [], s, hy, _ => by
    have ha : a ≠ ']' := fun he => hy (he ▸ List.mem_cons_self a ym)
    simp only [List.cons_append, List.nil_append, isPre, Bool.and_eq_true,
      decide_eq_true_eq]
    constructor
    · rintro ⟨he, _⟩
      exact absurd he ha
    · intro he
      exact absurd he (by simp)
  | a :: ym, c :: lm, s, hy, hl => by
    have ih := isPre_close ym lm s (fun hm => hy (List.mem_cons_of_mem a hm))
      (fun hm => hl (List.mem_cons_of_mem c hm))
    simp only [List.cons_append, isPre, Bool.and_eq_true, decide_eq_true_eq]
    constructor
    · rintro ⟨he, hp⟩
      rw [he, ih.mp hp]
    · intro he
      injection he with e1 e2
      exact ⟨e1, ih.mpr e2⟩

theorem isPre_mkRef {y l : List Char} (s : List Char) (hy : ']' ∉ y) (hl : ']' ∉ l) :
    (isPre (mkRef y) (mkRef l ++ s) = true ↔ y = l) := by
  have harr : mkRef l ++ s = '[' :: '^' :: (l ++ ']' :: s) := by simp [mkRef]
  rw [harr]
  show isPre ('[' :: '^' :: (y ++ [']'])) _ = true ↔ y = l
  simp only [isPre, Bool.and_eq_true, decide_eq_true_eq]
  rw [isPre_close y l s hy hl]
  simp

theorem lblOk_mem {l : List Char} (h : lblOkP l = true) :
    l ≠ [] ∧ ∀ c ∈ l, c ≠ '[' ∧ c ≠ ']' := by
  simp only [lblOkP, Bool.and_eq_true, List.all_eq_true, Bool.and_eq_true,
    decide_eq_true_eq] at h
  constructor
  · intro he
    subst he
    simp at h
  · exact h.2

theorem replaceRefsF_fuel {y r : List Char} :
    ∀ (f1 : Nat), ∀ (f2 : Nat) (s : List Char), s.length < f1 → s.length < f2 →
      replaceRefsF y r f1 s = replaceRefsF y r f2 s := by
  intro f1
  induction f1 with
  | zero => intro f2 s h1 _; omega
  | succ n ih =>
    intro f2 s h1 h2
    match f2, s with
    | 0, s => omega
    | m + 1, [] => rfl
    | m + 1, c :: rest =>
      simp only [replaceRefsF]
      by_cases hc : (isPre (mkRef y) (c :: rest) &&
          lookaheadOk ((c :: rest).drop (mkRef y).length)) = true
      · rw [if_pos hc, if_pos hc]
        congr 1
        have hlen : ((c :: rest).drop (mkRef y).length).length ≤ rest.length := by
          simp only [List.length_drop, List.length_cons, mkRef, List.length_append]
          omega
        simp only [List.length_cons] at h1 h2
        exact ih m _ (by omega) (by omega)
      · rw [if_neg hc, if_neg hc]
        simp only [List.length_cons] at h1 h2
        exact congrArg (c :: ·) (ih m rest (by omega) (by omega))

theorem replaceRefs_nil (y r : List Char) : replaceRefs y r [] = [] := rfl

theorem replaceRefs_cons_no {y r : List Char} {c : Char} {s : List Char}
    (h : (isPre (mkRef y) (c :: s) &&
      lookaheadOk ((c :: s).drop (mkRef y).length)) = false) :
    replaceRefs y r (c :: s) = c :: replaceRefs y r s := by
  unfold replaceRefs
  simp only [replaceRefsF, List.length_cons, h]
  simp only [Bool.false_eq_true, if_false]

theorem mkRef_length (l : List Char) : (mkRef l).length = l.length + 3 := by
  simp [mkRef]

theorem replaceRefs_ref_hit (y r t : List Char) (hlook : lookaheadOk t = true) :
    replaceRefs y r (mkRef y ++ t) = mkRef r ++ replaceRefs y r t := by
  have hdrop : (mkRef y ++ t).drop (mkRef y).length = t := List.drop_left _ _
  have hcond : (isPre (mkRef y) (mkRef y ++ t) &&
      lookaheadOk ((mkRef y ++ t).drop (mkRef y).length)) = true := by
    rw [hdrop, isPre_append_self, hlook]
    rfl
  have harr : mkRef y ++ t = '[' :: ('^' :: (y ++ [']']) ++ t) := by simp [mkRef]
  unfold replaceRefs
  rw [harr] at hcond ⊢
  simp only [replaceRefsF, List.length_cons, hcond, if_true]
  rw [← harr] at hcond ⊢
  congr 1
  rw [hdrop]
  apply replaceRefsF_fuel
  · simp only [List.length_append, mkRef_length]
    omega
  · omega

theorem replaceRefs_skip {y r : List Char} :
    ∀ {pre : List Char} (s : List Char), ('[' ∉ pre) →
      replaceRefs y r (pre ++ s) = pre ++ replaceRefs y r s
  | [], s, _ => by rfl
  | c :: pre, s, h => by
    have hc : c ≠ '[' := fun he => h (he ▸ List.mem_cons_self c pre)
    have hcond : (isPre (mkRef y) (c :: (pre ++ s)) &&
        lookaheadOk ((c :: (pre ++ s)).drop (mkRef y).length)) = false := by
      have : isPre (mkRef y) (c :: (pre ++ s)) = false := by
        show isPre ('[' :: '^' :: (y ++ [']'])) _ = false
        exact isPre_head_false (fun he => hc he.symm)
      rw [this]
      rfl
    rw [List.cons_append, replaceRefs_cons_no hcond,
      replaceRefs_skip s (fun hm => h (List.mem_cons_of_mem c hm))]
    simp

theorem replaceRefs_ref_miss {y l : List Char} (r t : List Char) (hy : ']' ∉ y)
    (hl : ']' ∉ l) (hlb : '[' ∉ l) (hne : y ≠ l) :
    replaceRefs y r (mkRef l ++ t) = mkRef l ++ replaceRefs y r t := by
  have harr : mkRef l ++ t = '[' :: (('^' :: (l ++ [']'])) ++ t) := by simp [mkRef]
  have hpre : isPre (mkRef y) (mkRef l ++ t) = false := by
    cases hp : isPre (mkRef y) (mkRef l ++ t) with
    | false => rfl
    | true => exact absurd ((isPre_mkRef t hy hl).mp hp) hne
  have hcond : (isPre (mkRef y) (mkRef l ++ t) &&
      lookaheadOk ((mkRef l ++ t).drop (mkRef y).length)) = false := by
    rw [hpre]
    rfl
  rw [harr] at hcond ⊢
  rw [replaceRefs_cons_no hcond]
  rw [replaceRefs_skip t (by
    intro hm
    simp only [List.mem_cons, List.mem_append, List.mem_singleton] at hm
    rcases hm with hm | hm | hm
    · exact absurd hm.symm (by decide)
    · exact hlb hm
    · exact absurd hm (by decide))]
  simp [mkRef]

theorem replaceRefs_dref {y l : List Char} (r t : List Char) (hy : ']' ∉ y)
    (hl : ']' ∉ l) (hlb : '[' ∉ l) :
    replaceRefs y r (mkRef l ++ ':' :: t) = mkRef l ++ ':' :: replaceRefs y r t := by
  have hcond : (isPre (mkRef y) (mkRef l ++ ':' :: t) &&
      lookaheadOk ((mkRef l ++ ':' :: t).drop (mkRef y).length)) = false := by
    by_cases hp : isPre (mkRef y) (mkRef l ++ ':' :: t) = true
    · have hyl : y = l := (isPre_mkRef (':' :: t) hy hl).mp hp
      subst hyl
      have hdrop : (mkRef y ++ ':' :: t).drop (mkRef y).length = ':' :: t :=
        List.drop_left _ _
      rw [hdrop]
      simp [lookaheadOk]
    · rw [Bool.not_eq_true] at hp
      rw [hp]
      rfl
  have harr : mkRef l ++ ':' :: t = '[' :: (('^' :: (l ++ [']', ':'])) ++ t) := by
    simp [mkRef]
  rw [harr] at hcond ⊢
  rw [replaceRefs_cons_no hcond]
  rw [replaceRefs_skip t (by
    intro hm
    simp only [List.mem_cons, List.mem_append, List.mem_singleton] at hm
    rcases hm with hm | hm | hm | hm
    · exact absurd hm.symm (by decide)
    · exact hlb hm
    · exact absurd hm (by decide)
    · exact absurd hm (by decide))]
  simp [mkRef]

/-! ## The replacement passes on segmented text -/

theorem renderPs_nil : renderPs [] = [] := rfl

theorem renderPs_cons (p : Piece) (ps : List Piece) :
    renderPs (p :: ps) = renderP p ++ renderPs ps := by
  simp [renderPs]

theorem piecesOk_txt {c : List Char} {rest : List Piece}
    (h : piecesOk (.txt c :: rest) = true) :
    c ≠ [] ∧ (∀ x ∈ c, x ≠ '[') ∧ piecesOk rest = true := by
  simp only [piecesOk, Bool.and_eq_true, List.all_eq_true, decide_eq_true_eq] at h
  exact ⟨by simpa using h.1.1, h.1.2, h.2⟩

theorem piecesOk_ref {l : List Char} {rest : List Piece}
    (h : piecesOk (.ref l :: rest) = true) :
    lblOkP l = true ∧ nextOkP rest = true ∧ piecesOk rest = true := by
  simp only [piecesOk, Bool.and_eq_true] at h
  exact ⟨h.1.1, h.1.2, h.2⟩

theorem piecesOk_dref {l : List Char} {rest : List Piece}
    (h : piecesOk (.dref l :: rest) = true) :
    lblOkP l = true ∧ piecesOk rest = true := by
  simpa only [piecesOk, Bool.and_eq_true] using h

theorem lookahead_render {ps : List Piece} (h : piecesOk ps = true)
    (hn : nextOkP ps = true) : lookaheadOk (renderPs ps) = true := by
  cases ps with
  | nil => rfl
  | cons p rest =>
    cases p with
    | txt c =>
      obtain ⟨hne, _, _⟩ := piecesOk_txt h
      cases c with
      | nil => exact absurd rfl hne
      | cons x xs =>
        have hx : x ≠ ':' := by
          simpa [nextOkP] using hn
        rw [renderPs_cons]
        exact lookaheadOk_cons _ hx
    | ref l =>
      rw [renderPs_cons]
      show lookaheadOk ('[' :: ('^' :: (l ++ [']']) ++ renderPs rest)) = true
      exact lookaheadOk_cons _ (by decide)
    | dref l =>
      rw [renderPs_cons]
      show lookaheadOk ('[' :: ('^' :: (l ++ [']', ':']) ++ renderPs rest)) = true
      exact lookaheadOk_cons _ (by decide)

theorem nextOkP_map (y r : List Char) (ps : List Piece) :
    nextOkP (ps.map (substPiece y r)) = nextOkP ps := by
  cases ps with
  | nil => rfl
  | cons p rest =>
    cases p with
    | txt c => cases c <;> rfl
    | ref l => rfl
    | dref l => rfl

theorem piecesOk_map {y r : List Char} (hr : lblOkP r = true) :
    ∀ {ps : List Piece}, piecesOk ps = true →
      piecesOk (ps.map (substPiece y r)) = true
  | [], _ => rfl
  | .txt c :: rest, h => by
    obtain ⟨h1, h2, h3⟩ := piecesOk_txt h
    simp only [List.map_cons, substPiece, piecesOk, Bool.and_eq_true]
    refine ⟨⟨by simpa using h1, by simpa using h2⟩, piecesOk_map hr h3⟩
  | .ref l :: rest, h => by
    obtain ⟨h1, h2, h3⟩ := piecesOk_ref h
    simp only [List.map_cons, substPiece, piecesOk, Bool.and_eq_true]
    refine ⟨⟨?_, ?_⟩, piecesOk_map hr h3⟩
    · by_cases he : l = y
      · simp [he, hr]
      · simp [he, h1]
    · rw [nextOkP_map]
      exact h2
  | .dref l :: rest, h => by
    obtain ⟨h1, h3⟩ := piecesOk_dref h
    simp only [List.map_cons, substPiece, piecesOk, Bool.and_eq_true]
    exact ⟨h1, piecesOk_map hr h3⟩

theorem replaceRefs_render (y r : List Char) (hy : lblOkP y = true) :
    ∀ {ps : List Piece}, piecesOk ps = true →
      replaceRefs y r (renderPs ps) = renderPs (ps.map (substPiece y r))
  | [], _ => rfl
  | .txt c :: rest, h => by
    obtain ⟨_, h2, h3⟩ := piecesOk_txt h
    rw [renderPs_cons]
    show replaceRefs y r (c ++ renderPs rest) = _
    rw [replaceRefs_skip _ (fun hm => (h2 '[' hm) rfl)]
    rw [replaceRefs_render y r hy h3]
    simp [List.map_cons, substPiece, renderPs_cons, renderP]
  | .ref l :: rest, h => by
    obtain ⟨h1, h2, h3⟩ := piecesOk_ref h
    rw [renderPs_cons]
    show replaceRefs y r (mkRef l ++ renderPs rest) = _
    by_cases he : l = y
    · rw [he, replaceRefs_ref_hit y r _ (lookahead_render h3 h2),
        replaceRefs_render y r hy h3]
      simp [List.map_cons, substPiece, renderPs_cons, renderP, he]
    · have hyne : y ≠ l := fun hx => he hx.symm
      have hym := (lblOk_mem hy).2
      have hlm := (lblOk_mem h1).2
      rw [replaceRefs_ref_miss r _ (fun hm => (hym ']' hm).2 rfl)
        (fun hm => (hlm ']' hm).2 rfl) (fun hm => (hlm '[' hm).1 rfl) hyne]
      rw [replaceRefs_render y r hy h3]
      simp [List.map_cons, substPiece, renderPs_cons, renderP, he]
  | .dref l :: rest, h => by
    obtain ⟨h1, h3⟩ := piecesOk_dref h
    rw [renderPs_cons]
    have harr : renderP (Piece.dref l) ++ renderPs rest =
        mkRef l ++ ':' :: renderPs rest := by
      simp [renderP]
    rw [harr]
    have hym := (lblOk_mem hy).2
    have hlm := (lblOk_mem h1).2
    rw [replaceRefs_dref r _ (fun hm => (hym ']' hm).2 rfl)
      (fun hm => (hlm ']' hm).2 rfl) (fun hm => (hlm '[' hm).1 rfl)]
    rw [replaceRefs_render y r hy h3]
    simp [List.map_cons, substPiece, renderPs_cons, renderP]

theorem mapRefs_id : ∀ ps : List Piece, mapRefs (fun l => l) ps = ps
  | [] => rfl
  | p :: rest => by
    have ih := mapRefs_id rest
    cases p with
    | txt c => exact congrArg (Piece.txt c :: ·) ih
    | ref l => exact congrArg (Piece.ref l :: ·) ih
    | dref l => exact congrArg (Piece.dref l :: ·) ih

theorem mapRefs_substPiece (g : List Char → List Char) (y r : List Char) :
    ∀ ps : List Piece,
      mapRefs g (ps.map (substPiece y r)) =
        mapRefs (fun l => g (if l = y then r else l)) ps
  | [] => rfl
  | p :: rest => by
    have ih := mapRefs_substPiece g y r rest
    cases p with
    | txt c => exact congrArg (Piece.txt c :: ·) ih
    | ref l => exact congrArg (Piece.ref (g (if l = y then r else l)) :: ·) ih
    | dref l => exact congrArg (Piece.dref l :: ·) ih

theorem fold_replace_render :
    ∀ (prs : List (List Char × List Char)) (ps : List Piece),
      piecesOk ps = true →
      (∀ pr ∈ prs, lblOkP pr.1 = true ∧ lblOkP pr.2 = true) →
      List.foldl (fun s pr => replaceRefs pr.1 pr.2 s) (renderPs ps) prs =
        renderPs (mapRefs (substLbl prs) ps)
  | [], ps, _, _ => by
    rw [List.foldl_nil]
    show renderPs ps = renderPs (mapRefs (fun l => l) ps)
    rw [mapRefs_id]
  | pr :: prs, ps, hps, hprs => by
    rw [List.foldl_cons]
    have hpr := hprs pr (List.mem_cons_self pr prs)
    rw [replaceRefs_render pr.1 pr.2 hpr.1 hps]
    rw [fold_replace_render prs (ps.map (substPiece pr.1 pr.2))
      (piecesOk_map hpr.2 hps) (fun q hq => hprs q (List.mem_cons_of_mem pr hq))]
    rw [mapRefs_substPiece]
    exact congrArg (fun g => renderPs (mapRefs g ps)) (funext fun l => rfl)

/-! ## Decimal rendering and the replacement bookkeeping -/

theorem char_eq_of_toNat {a b : Char} (h : a.toNat = b.toNat) : a = b := by
  apply Char.eq_of_val_eq
  exact UInt32.toNat.inj h

theorem digitChar_ok (n : Nat) : okDigit (digitChar n) = true := by
  have h : n % 10 < 10 := Nat.mod_lt _ (by omega)
  unfold digitChar
  generalize n % 10 = m at h
  interval_cases m <;> exact (by decide)

theorem okDigit_spec {c : Char} (h : okDigit c = true) :
    lineTerm c = false ∧ c ≠ '[' ∧ c ≠ ']' ∧ c ≠ '\\' ∧ c ≠ '_' := by
  simp only [okDigit, Bool.and_eq_true, Bool.not_eq_true', bne_iff_ne] at h
  tauto

theorem natToStrF_suffix : ∀ (fuel n : Nat) (acc : List Char),
    ∃ ds, natToStrF fuel n acc = ds ++ acc ∧ ∀ c ∈ ds, okDigit c = true
  | 0, _, acc => ⟨[], rfl, by intro c hc; simp at hc⟩
  | _ + 1, 0, acc => ⟨[], rfl, by intro c hc; simp at hc⟩
  | fuel + 1, n + 1, acc => by
    obtain ⟨ds, hd, hdig⟩ := natToStrF_suffix fuel ((n + 1) / 10) (digitChar (n + 1) :: acc)
    refine ⟨ds ++ [digitChar (n + 1)], ?_, ?_⟩
    · show natToStrF fuel ((n + 1) / 10) (digitChar (n + 1) :: acc) = _
      rw [hd]
      simp
    · intro c hc
      rcases List.mem_append.mp hc with hm | hm
      · exact hdig c hm
      · simp only [List.mem_singleton] at hm
        subst hm
        exact digitChar_ok _

theorem natToStr_ok (n : Nat) : ∀ c ∈ natToStr n, okDigit c = true := by
  unfold natToStr
  split
  · intro c hc
    simp only [List.mem_singleton] at hc
    subst hc
    decide
  · obtain ⟨ds, hd, hdig⟩ := natToStrF_suffix (n + 1) n []
    rw [hd]
    intro c hc
    exact hdig c (by simpa using hc)

theorem natToStr_ne_nil (n : Nat) : natToStr n ≠ [] := by
  unfold natToStr
  split
  · simp
  · rename_i hn
    cases n with
    | zero => exact absurd rfl hn
    | succ m =>
      show natToStrF (m + 1) ((m + 1) / 10) (digitChar (m + 1) :: []) ≠ []
      obtain ⟨ds, hd, _⟩ := natToStrF_suffix (m + 1) ((m + 1) / 10) [digitChar (m + 1)]
      rw [hd]
      simp

theorem cleanLblB_natToStr (n : Nat) : cleanLblB (natToStr n) = true := by
  simp only [cleanLblB, Bool.and_eq_true, List.all_eq_true]
  refine ⟨by simp [List.isEmpty_iff, natToStr_ne_nil], ?_⟩
  intro c hc
  obtain ⟨h1, h2, h3, h4, _⟩ := okDigit_spec (natToStr_ok n c hc)
  simp [h1, h2, h3, h4]

theorem lblOkP_of_clean {l : List Char} (h : cleanLblB l = true) : lblOkP l = true := by
  simp only [cleanLblB, Bool.and_eq_true, List.all_eq_true] at h
  simp only [lblOkP, Bool.and_eq_true, List.all_eq_true]
  refine ⟨h.1, fun c hc => ?_⟩
  have := h.2 c hc
  simp only [Bool.and_eq_true, decide_eq_true_eq] at this ⊢
  exact ⟨this.1.1.1, this.1.1.2⟩

theorem lblOkP_natToStr (n : Nat) : lblOkP (natToStr n) = true :=
  lblOkP_of_clean (cleanLblB_natToStr n)

theorem placeholderOf_head (s : List Char) :
    placeholderOf s = '_' :: (lit "_TEMP_FOOTNOTE_" ++ s ++ lit "__") := rfl

theorem natToStr_ne_placeholder (n : Nat) (s : List Char) :
    natToStr n ≠ placeholderOf s := by
  intro he
  cases hcs : natToStr n with
  | nil => exact natToStr_ne_nil n hcs
  | cons c rest =>
    have hok := natToStr_ok n c (hcs ▸ List.mem_cons_self c rest)
    rw [hcs, placeholderOf_head] at he
    have hc : c = '_' := by
      simpa using congrArg List.head? he
    exact (okDigit_spec hok).2.2.2.2 hc

theorem placeholderOf_inj {a b : List Char} (h : placeholderOf a = placeholderOf b) :
    a = b := by
  unfold placeholderOf at h
  exact List.append_cancel_left (List.append_cancel_right h)

theorem substLbl_nil (l : List Char) : substLbl [] l = l := rfl

theorem substLbl_cons (pr : List Char × List Char) (prs : List (List Char × List Char))
    (l : List Char) :
    substLbl (pr :: prs) l = substLbl prs (if l = pr.1 then pr.2 else l) := rfl

theorem substLbl_append (a b : List (List Char × List Char)) (l : List Char) :
    substLbl (a ++ b) l = substLbl b (substLbl a l) := by
  simp [substLbl, List.foldl_append]

theorem substLbl_miss : ∀ (prs : List (List Char × List Char)) (v : List Char),
    (∀ q ∈ prs, q.1 ≠ v) → substLbl prs v = v
  | [], _, _ => rfl
  | q :: prs, v, h => by
    rw [substLbl_cons, if_neg (fun he => h q (List.mem_cons_self q prs) he.symm)]
    exact substLbl_miss prs v (fun q' hq' => h q' (List.mem_cons_of_mem q hq'))

theorem posOf_lt {l : List Char} : ∀ {ls : List (List Char)}, l ∈ ls → posOf l ls < ls.length
  | x :: xs, h => by
    by_cases hx : x = l
    · simp [posOf, hx]
    · have hm : l ∈ xs := by
        rcases List.mem_cons.mp h with he | hm
        · exact absurd he.symm hx
        · exact hm
      simp only [posOf, if_neg hx, List.length_cons]
      exact Nat.succ_lt_succ (posOf_lt hm)

theorem mem_labelPlaceholders {draws : Nat → List Char} {numOf : List Char → Option Nat} :
    ∀ {lbls : List (List Char)} {i : Nat} {t : List Char × List Char × Nat},
      t ∈ labelPlaceholders draws numOf lbls i →
      t.1 ∈ lbls ∧ ∃ j, i ≤ j ∧ j < i + lbls.length ∧
        t.2.1 = placeholderOf (draws j) ∧ t.2.2 = (numOf t.1).getD 0
  | lbl :: rest, i, t, h => by
    rcases List.mem_cons.mp h with he | hm
    · subst he
      exact ⟨List.mem_cons_self _ _, i, Nat.le_refl i, by simp, rfl, rfl⟩
    · obtain ⟨h1, j, hj1, hj2, hj3⟩ := mem_labelPlaceholders hm
      refine ⟨List.mem_cons_of_mem _ h1, j, by omega, by simp at hj2 ⊢; omega, hj3⟩

theorem substLbl_pass1 (draws : Nat → List Char) (numOf : List Char → Option Nat) :
    ∀ (lbls : List (List Char)) (i : Nat) (l : List Char),
      (∀ j, i ≤ j → j < i + lbls.length → ∀ m ∈ lbls, placeholderOf (draws j) ≠ m) →
      l ∈ lbls →
      substLbl (pairsOfTrips (labelPlaceholders draws numOf lbls i)) l =
        placeholderOf (draws (i + posOf l lbls))
  | x :: rest, i, l, hfresh, hmem => by
    show substLbl ((x, placeholderOf (draws i)) ::
      pairsOfTrips (labelPlaceholders draws numOf rest (i + 1))) l = _
    by_cases hx : x = l
    · rw [substLbl_cons, if_pos (by simp [hx])]
      have hmiss : ∀ q ∈ pairsOfTrips (labelPlaceholders draws numOf rest (i + 1)),
          q.1 ≠ placeholderOf (draws i) := by
        intro q hq
        simp only [pairsOfTrips, List.mem_map] at hq
        obtain ⟨t, ht, hqe⟩ := hq
        obtain ⟨h1, _⟩ := mem_labelPlaceholders ht
        subst hqe
        intro he
        exact hfresh i (Nat.le_refl i) (by simp) t.1 (List.mem_cons_of_mem x h1) he.symm
      rw [substLbl_miss _ _ hmiss]
      simp [posOf, hx]
    · have hm : l ∈ rest := by
        rcases List.mem_cons.mp hmem with he | hm
        · exact absurd he.symm hx
        · exact hm
      rw [substLbl_cons, if_neg (by simp; intro he; exact hx he.symm)]
      rw [substLbl_pass1 draws numOf rest (i + 1) l
        (fun j hj1 hj2 m hmm => hfresh j (by omega) (by simp at hj2 ⊢; omega) m
          (List.mem_cons_of_mem x hmm)) hm]
      have : i + posOf l (x :: rest) = i + 1 + posOf l rest := by
        simp [posOf, if_neg hx]
        omega
      rw [this]

theorem substLbl_pass2 (draws : Nat → List Char) (numOf : List Char → Option Nat) :
    ∀ (lbls : List (List Char)) (i : Nat) (l : List Char),
      (∀ a, i ≤ a → a < i + lbls.length → ∀ b, i ≤ b → b < i + lbls.length →
        a ≠ b → draws a ≠ draws b) →
      l ∈ lbls →
      substLbl ((labelPlaceholders draws numOf lbls i).map
          (fun t => (t.2.1, natToStr t.2.2)))
        (placeholderOf (draws (i + posOf l lbls))) =
      natToStr ((numOf l).getD 0)
  | x :: rest, i, l, hinj, hmem => by
    show substLbl ((placeholderOf (draws i), natToStr ((numOf x).getD 0)) ::
      (labelPlaceholders draws numOf rest (i + 1)).map (fun t => (t.2.1, natToStr t.2.2)))
      _ = _
    by_cases hx : x = l
    · have hpos : posOf l (x :: rest) = 0 := by simp [posOf, hx]
      rw [hpos, substLbl_cons, if_pos (by simp)]
      have hmiss : ∀ q ∈ (labelPlaceholders draws numOf rest (i + 1)).map
          (fun t => (t.2.1, natToStr t.2.2)), q.1 ≠ natToStr ((numOf x).getD 0) := by
        intro q hq
        simp only [List.mem_map] at hq
        obtain ⟨t, ht, hqe⟩ := hq
        obtain ⟨_, j, _, _, hp, _⟩ := mem_labelPlaceholders ht
        subst hqe
        simp only [hp]
        exact fun he => natToStr_ne_placeholder _ _ he.symm
      rw [substLbl_miss _ _ hmiss, hx]
    · have hm : l ∈ rest := by
        rcases List.mem_cons.mp hmem with he | hm
        · exact absurd he.symm hx
        · exact hm
      have hpos : posOf l (x :: rest) = posOf l rest + 1 := by simp [posOf, if_neg hx]
      have hlt : posOf l rest < rest.length := posOf_lt hm
      have hne : placeholderOf (draws (i + posOf l (x :: rest))) ≠
          placeholderOf (draws i) := by
        intro he
        have hde := placeholderOf_inj he
        exact hinj (i + posOf l (x :: rest)) (by omega)
          (by simp [hpos]; omega) i (Nat.le_refl i) (by simp) (by omega) hde
      rw [substLbl_cons, if_neg hne]
      have harr : i + posOf l (x :: rest) = i + 1 + posOf l rest := by
        rw [hpos]; omega
      rw [harr]
      exact substLbl_pass2 draws numOf rest (i + 1) l
        (fun a ha1 ha2 b hb1 hb2 hab => hinj a (by omega) (by simp at ha2 ⊢; omega)
          b (by omega) (by simp at hb2 ⊢; omega) hab) hm

theorem jsObjSet_fresh {m : List (List Char × Nat)} {k : List Char} {v : Nat}
    (h : ∀ p ∈ m, p.1 ≠ k) : jsObjSet m k v = m ++ [(k, v)] := by
  unfold jsObjSet
  rw [if_neg]
  simp only [List.any_eq_true, decide_eq_true_eq, not_exists, not_and]
  intro p hp
  exact h p hp

theorem tempMap_fresh : ∀ (trips : List (List Char × List Char × Nat))
    (acc : List (List Char × Nat)),
    List.Pairwise (fun a b => a.2.1 ≠ b.2.1) trips →
    (∀ t ∈ trips, ∀ p ∈ acc, p.1 ≠ t.2.1) →
    List.foldl (fun m t => jsObjSet m t.2.1 t.2.2) acc trips =
      acc ++ trips.map (fun t => (t.2.1, t.2.2))
  | [], acc, _, _ => by simp
  | t :: trips, acc, hpw, hacc => by
    rw [List.foldl_cons, jsObjSet_fresh (hacc t (List.mem_cons_self t trips))]
    rw [tempMap_fresh trips (acc ++ [(t.2.1, t.2.2)]) (List.Pairwise.of_cons hpw)]
    · simp
    · intro t' ht' p hp
      rcases List.mem_append.mp hp with hm | hm
      · exact hacc t' (List.mem_cons_of_mem t ht') p hm
      · simp only [List.mem_singleton] at hm
        subst hm
        exact (List.pairwise_cons.mp hpw).1 t' ht'

theorem tempMap_eq (trips : List (List Char × List Char × Nat))
    (hpw : List.Pairwise (fun a b => a.2.1 ≠ b.2.1) trips) :
    tempMap trips = trips.map (fun t => (t.2.1, t.2.2)) := by
  have h := tempMap_fresh trips [] hpw (by simp)
  simpa [tempMap] using h

theorem labelPlaceholders_pairwise (draws : Nat → List Char)
    (numOf : List Char → Option Nat) :
    ∀ (lbls : List (List Char)) (i : Nat),
      (∀ a, i ≤ a → a < i + lbls.length → ∀ b, i ≤ b → b < i + lbls.length →
        a ≠ b → draws a ≠ draws b) →
      List.Pairwise (fun a b => a.2.1 ≠ b.2.1)
        (labelPlaceholders draws numOf lbls i)
  | [], _, _ => List.Pairwise.nil
  | x :: rest, i, hinj => by
    show List.Pairwise _ ((x, placeholderOf (draws i), (numOf x).getD 0) ::
      labelPlaceholders draws numOf rest (i + 1))
    rw [List.pairwise_cons]
    constructor
    · intro t ht
      obtain ⟨_, j, hj1, hj2, hp, _⟩ := mem_labelPlaceholders ht
      show placeholderOf (draws i) ≠ t.2.1
      rw [hp]
      intro he
      exact hinj i (Nat.le_refl i) (by simp) j (by omega)
        (by simp at hj2 ⊢; omega) (by omega) (placeholderOf_inj he)
    · exact labelPlaceholders_pairwise draws numOf rest (i + 1)
        (fun a ha1 ha2 b hb1 hb2 hab => hinj a (by omega) (by simp at ha2 ⊢; omega)
          b (by omega) (by simp at hb2 ⊢; omega) hab)

theorem pass1_foldl (trips : List (List Char × List Char × Nat)) (s : List Char) :
    pass1 trips s =
      List.foldl (fun s pr => replaceRefs pr.1 pr.2 s) s (pairsOfTrips trips) := by
  unfold pass1 pairsOfTrips
  rw [List.foldl_map]

theorem pass2_foldl (m : List (List Char × Nat)) (s : List Char) :
    pass2 m s =
      List.foldl (fun s pr => replaceRefs pr.1 pr.2 s) s (pairsOfTemp m) := by
  unfold pass2 pairsOfTemp
  rw [List.foldl_map]

theorem pairsOfTemp_map (trips : List (List Char × List Char × Nat)) :
    pairsOfTemp (trips.map (fun t => (t.2.1, t.2.2))) =
      trips.map (fun t => (t.2.1, natToStr t.2.2)) := by
  unfold pairsOfTemp
  rw [List.map_map]
  rfl

theorem mapRefs_congr (g g' : List Char → List Char) :
    ∀ ps : List Piece, (∀ l, Piece.ref l ∈ ps → g l = g' l) →
      mapRefs g ps = mapRefs g' ps
  | [], _ => rfl
  | p :: rest, h => by
    have ih := mapRefs_congr g g' rest
      (fun l hl => h l (List.mem_cons_of_mem p hl))
    cases p with
    | txt c => exact congrArg (Piece.txt c :: ·) ih
    | ref l =>
      rw [show mapRefs g (Piece.ref l :: rest) = Piece.ref (g l) :: mapRefs g rest
        from rfl]
      rw [show mapRefs g' (Piece.ref l :: rest) = Piece.ref (g' l) :: mapRefs g' rest
        from rfl]
      rw [h l (List.mem_cons_self _ _), ih]
    | dref l => exact congrArg (Piece.dref l :: ·) ih

theorem twoPass_render (draws : Nat → List Char) (numOf : List Char → Option Nat)
    (lbls : List (List Char)) (ps : List Piece)
    (hps : piecesOk ps = true)
    (hlbl : ∀ m ∈ lbls, cleanLblB m = true)
    (hfresh : ∀ j, j < lbls.length → ∀ m ∈ lbls, placeholderOf (draws j) ≠ m)
    (hclean : ∀ j, j < lbls.length → cleanLblB (placeholderOf (draws j)) = true)
    (hinj : ∀ a, a < lbls.length → ∀ b, b < lbls.length → a ≠ b → draws a ≠ draws b)
    (hrefs : ∀ l, Piece.ref l ∈ ps → l ∈ lbls) :
    pass2 (tempMap (labelPlaceholders draws numOf lbls 0))
        (pass1 (labelPlaceholders draws numOf lbls 0) (renderPs ps)) =
      renderPs (mapRefs (mapLbl numOf) ps) := by
  have hpw : List.Pairwise (fun a b => a.2.1 ≠ b.2.1)
      (labelPlaceholders draws numOf lbls 0) :=
    labelPlaceholders_pairwise draws numOf lbls 0
      (fun a _ ha2 b _ hb2 hab => hinj a (by omega) b (by omega) hab)
  rw [pass1_foldl, pass2_foldl, tempMap_eq _ hpw, pairsOfTemp_map,
    ← List.foldl_append]
  have hok : ∀ pr ∈ pairsOfTrips (labelPlaceholders draws numOf lbls 0) ++
      (labelPlaceholders draws numOf lbls 0).map (fun t => (t.2.1, natToStr t.2.2)),
      lblOkP pr.1 = true ∧ lblOkP pr.2 = true := by
    intro pr hpr
    rcases List.mem_append.mp hpr with hm | hm
    · simp only [pairsOfTrips, List.mem_map] at hm
      obtain ⟨t, ht, hte⟩ := hm
      obtain ⟨h1, j, _, hj2, hp, _⟩ := mem_labelPlaceholders ht
      subst hte
      refine ⟨lblOkP_of_clean (hlbl t.1 h1), ?_⟩
      show lblOkP t.2.1 = true
      rw [hp]
      exact lblOkP_of_clean (hclean j (by omega))
    · simp only [List.mem_map] at hm
      obtain ⟨t, ht, hte⟩ := hm
      obtain ⟨_, j, _, hj2, hp, _⟩ := mem_labelPlaceholders ht
      subst hte
      refine ⟨?_, lblOkP_natToStr _⟩
      show lblOkP t.2.1 = true
      rw [hp]
      exact lblOkP_of_clean (hclean j (by omega))
  rw [fold_replace_render _ ps hps hok]
  apply congrArg renderPs
  apply mapRefs_congr
  intro l hl
  have hml := hrefs l hl
  rw [substLbl_append]
  rw [substLbl_pass1 draws numOf lbls 0 l
    (fun j _ hj2 m hm => hfresh j (by omega) m hm) hml]
  have h2 := substLbl_pass2 draws numOf lbls 0 l
    (fun a _ ha2 b _ hb2 hab => hinj a (by omega) b (by omega) hab) hml
  simp only [Nat.zero_add] at h2 ⊢
  rw [h2]
  rfl

/-! ## Rendering the line decomposition -/

theorem renderPs_append (a b : List Piece) :
    renderPs (a ++ b) = renderPs a ++ renderPs b := by
  simp [renderPs]

theorem renderPs_consTxt (c : List Char) (ps : List Piece) :
    renderPs (consTxt c ps) = c ++ renderPs ps := by
  unfold consTxt
  split
  · rename_i hc
    subst hc
    simp
  · simp [renderPs_cons, renderP]

theorem refsStr_render : ∀ (ps : List (List Char × List Char)) (c0 : List Char),
    refsStr c0 ps = c0 ++ renderPs (refPieces ps)
  | [], c0 => by simp [refsStr, refPieces, renderPs]
  | p :: rest, c0 => by
    show c0 ++ mkRef p.1 ++ refsStr p.2 rest = _
    rw [refsStr_render rest p.2]
    show _ = c0 ++ renderPs (Piece.ref p.1 :: consTxt p.2 (refPieces rest))
    rw [renderPs_cons, renderPs_consTxt]
    simp [renderP]

theorem flinePieces_render (fl : FLine) : renderPs (flinePieces fl) = flineStr fl := by
  cases fl with
  | norm c0 ps =>
    show renderPs (consTxt c0 (refPieces ps)) = refsStr c0 ps
    rw [renderPs_consTxt, refsStr_render]
  | defn ind lbl ws t0 tps =>
    show renderPs (consTxt ind (Piece.dref lbl :: consTxt (ws ++ t0) (refPieces tps))) = _
    rw [renderPs_consTxt, renderPs_cons, renderPs_consTxt]
    simp [renderP, flineStr, refsStr_render tps t0]

theorem catPieces_render (sep : List Char) :
    ∀ ls : List FLine, renderPs (catPieces sep ls) = joinSep sep (ls.map flineStr)
  | [] => rfl
  | [l] => by
    show renderPs (flinePieces l) = joinSep sep [flineStr l]
    rw [flinePieces_render, joinSep_single]
  | l :: l2 :: rest => by
    show renderPs (flinePieces l ++ Piece.txt sep :: catPieces sep (l2 :: rest)) = _
    rw [renderPs_append, renderPs_cons, flinePieces_render,
      catPieces_render sep (l2 :: rest)]
    rw [show List.map flineStr (l :: l2 :: rest) =
      flineStr l :: flineStr l2 :: List.map flineStr rest from rfl, joinSep_cons2]
    simp [renderP]

theorem nextOkP_indep (p : Piece) (xs ys : List Piece) :
    nextOkP (p :: xs) = nextOkP (p :: ys) := by
  cases p with
  | txt c => cases c <;> rfl
  | ref l => rfl
  | dref l => rfl

theorem piecesOk_append : ∀ {a b : List Piece}, piecesOk a = true → piecesOk b = true →
    nextOkP b = true → piecesOk (a ++ b) = true
  | [], b, _, hb, _ => hb
  | .txt c :: rest, b, ha, hb, hn => by
    obtain ⟨h1, h2, h3⟩ := piecesOk_txt ha
    show (!c.isEmpty && c.all (fun x => x ≠ '[') && piecesOk (rest ++ b)) = true
    rw [piecesOk_append h3 hb hn]
    simp only [Bool.and_true, Bool.and_eq_true, Bool.not_eq_true', List.all_eq_true]
    exact ⟨by simpa using h1, fun x hx => by simpa using h2 x hx⟩
  | .ref l :: rest, b, ha, hb, hn => by
    obtain ⟨h1, h2, h3⟩ := piecesOk_ref ha
    show (lblOkP l && nextOkP (rest ++ b) && piecesOk (rest ++ b)) = true
    rw [piecesOk_append h3 hb hn, h1]
    cases rest with
    | nil => simpa using hn
    | cons p rest' =>
      rw [show (p :: rest') ++ b = p :: (rest' ++ b) from rfl,
        nextOkP_indep p (rest' ++ b) rest']
      simpa using h2
  | .dref l :: rest, b, ha, hb, hn => by
    obtain ⟨h1, h3⟩ := piecesOk_dref ha
    show (lblOkP l && piecesOk (rest ++ b)) = true
    rw [piecesOk_append h3 hb hn, h1]
    rfl

theorem piecesOk_consTxt {c : List Char} {ps : List Piece}
    (hc : ∀ x ∈ c, x ≠ '[') (hps : piecesOk ps = true) :
    piecesOk (consTxt c ps) = true := by
  unfold consTxt
  split
  · exact hps
  · rename_i hne
    show (!c.isEmpty && c.all (fun x => x ≠ '[') && piecesOk ps) = true
    rw [hps]
    simp only [Bool.and_true, Bool.and_eq_true, Bool.not_eq_true', List.all_eq_true]
    exact ⟨by simpa [List.isEmpty_iff] using hne, fun x hx => by simpa using hc x hx⟩

theorem piecesOk_refPieces : ∀ {ps : List (List Char × List Char)},
    pairsOkB ps = true → piecesOk (refPieces ps) = true
  | [], _ => rfl
  | p :: rest, h => by
    obtain ⟨hl, hc2, hn2, hrest⟩ := pairsOk_cons h
    show (lblOkP p.1 && nextOkP (consTxt p.2 (refPieces rest)) &&
      piecesOk (consTxt p.2 (refPieces rest))) = true
    have hok : piecesOk (consTxt p.2 (refPieces rest)) = true :=
      piecesOk_consTxt (fun x hx => (chunkOk_mem hc2 x hx).1) (piecesOk_refPieces hrest)
    rw [hok, lblOkP_of_clean hl]
    have hnext : nextOkP (consTxt p.2 (refPieces rest)) = true := by
      unfold consTxt
      split
      · cases hrp : refPieces rest with
        | nil => rfl
        | cons q qs =>
          cases rest with
          | nil => simp [refPieces] at hrp
          | cons r rs =>
            simp only [refPieces] at hrp
            rw [← hrp]
            rfl
      · cases hc : p.2 with
        | nil => rfl
        | cons x xs =>
          show (x ≠ ':' : Bool) = true
          by_cases hx : x = ':'
          · subst hx
            rw [hc] at hn2
            simp [headNotColon] at hn2
          · simp [hx]
    rw [hnext]
    rfl

theorem piecesOk_flinePieces {fl : FLine} (h : flineOkB fl = true) :
    piecesOk (flinePieces fl) = true := by
  cases fl with
  | norm c0 ps =>
    obtain ⟨h1, h2⟩ := flineOk_norm h
    exact piecesOk_consTxt (fun x hx => (chunkOk_mem h1 x hx).1) (piecesOk_refPieces h2)
  | defn ind lbl ws t0 tps =>
    obtain ⟨h1, h2, h3, h4, _, h6⟩ := flineOk_defn h
    apply piecesOk_consTxt (fun x hx => isWs_not_lb (wsOk_mem h1 x hx).1)
    show (lblOkP lbl && piecesOk (consTxt (ws ++ t0) (refPieces tps))) = true
    rw [lblOkP_of_clean h2, piecesOk_consTxt ?hc (piecesOk_refPieces h6)]
    · rfl
    case hc =>
      intro x hx
      rcases List.mem_append.mp hx with hm | hm
      · exact isWs_not_lb (wsOk_mem h3 x hm).1
      · exact (chunkOk_mem h4 x hm).1

theorem sep_head_ok (crlf : Bool) (ps : List Piece) :
    nextOkP (Piece.txt (famSep crlf) :: ps) = true := by
  cases crlf <;> rfl

theorem piecesOk_catPieces (crlf : Bool) :
    ∀ {ls : List FLine}, famOKB ls = true →
      piecesOk (catPieces (famSep crlf) ls) = true
  | [], _ => rfl
  | [l], h => piecesOk_flinePieces (famOK_cons h).1
  | l :: l2 :: rest, h => by
    obtain ⟨hl, hrest⟩ := famOK_cons h
    show piecesOk (flinePieces l ++
      Piece.txt (famSep crlf) :: catPieces (famSep crlf) (l2 :: rest)) = true
    apply piecesOk_append (piecesOk_flinePieces hl) ?hb (sep_head_ok crlf _)
    show (!(famSep crlf).isEmpty && (famSep crlf).all (fun x => x ≠ '[') &&
      piecesOk (catPieces (famSep crlf) (l2 :: rest))) = true
    rw [piecesOk_catPieces crlf hrest]
    cases crlf <;> rfl

theorem mapRefs_append (g : List Char → List Char) (a b : List Piece) :
    mapRefs g (a ++ b) = mapRefs g a ++ mapRefs g b := by
  simp [mapRefs]

theorem mapRefs_consTxt (g : List Char → List Char) (c : List Char) (ps : List Piece) :
    mapRefs g (consTxt c ps) = consTxt c (mapRefs g ps) := by
  unfold consTxt
  split <;> rfl

theorem mapRefs_refPieces (g : List Char → List Char) :
    ∀ ps : List (List Char × List Char),
      mapRefs g (refPieces ps) = refPieces (ps.map (fun p => (g p.1, p.2)))
  | [] => rfl
  | p :: rest => by
    show Piece.ref (g p.1) :: mapRefs g (consTxt p.2 (refPieces rest)) =
      Piece.ref (g p.1) :: consTxt p.2 (refPieces (rest.map _))
    rw [mapRefs_consTxt, mapRefs_refPieces g rest]

theorem mapRefs_flinePieces (g : List Char → List Char) (fl : FLine) :
    mapRefs g (flinePieces fl) = flinePieces (substFLine g fl) := by
  cases fl with
  | norm c0 ps =>
    show mapRefs g (consTxt c0 (refPieces ps)) = consTxt c0 (refPieces (ps.map _))
    rw [mapRefs_consTxt, mapRefs_refPieces]
  | defn ind lbl ws t0 tps =>
    show mapRefs g (consTxt ind (Piece.dref lbl :: consTxt (ws ++ t0) (refPieces tps))) = _
    rw [mapRefs_consTxt]
    show consTxt ind (Piece.dref lbl :: mapRefs g (consTxt (ws ++ t0) (refPieces tps))) = _
    rw [mapRefs_consTxt, mapRefs_refPieces]
    rfl

theorem mapRefs_catPieces (g : List Char → List Char) (sep : List Char) :
    ∀ ls : List FLine,
      mapRefs g (catPieces sep ls) = catPieces sep (ls.map (substFLine g))
  | [] => rfl
  | [l] => mapRefs_flinePieces g l
  | l :: l2 :: rest => by
    show mapRefs g (flinePieces l ++ Piece.txt sep :: catPieces sep (l2 :: rest)) = _
    rw [mapRefs_append, mapRefs_flinePieces]
    show flinePieces (substFLine g l) ++
      Piece.txt sep :: mapRefs g (catPieces sep (l2 :: rest)) = _
    rw [mapRefs_catPieces g sep (l2 :: rest)]
    rfl

theorem ref_mem_consTxt {l : List Char} {c : List Char} {ps : List Piece}
    (h : Piece.ref l ∈ consTxt c ps) : Piece.ref l ∈ ps := by
  unfold consTxt at h
  split at h
  · exact h
  · rcases List.mem_cons.mp h with he | hm
    · exact absurd he (by simp)
    · exact hm

theorem ref_mem_refPieces {l : List Char} :
    ∀ {ps : List (List Char × List Char)},
      Piece.ref l ∈ refPieces ps → l ∈ ps.map Prod.fst
  | p :: rest, h => by
    rcases List.mem_cons.mp h with he | hm
    · simp only [Piece.ref.injEq] at he
      simp [he]
    · have := ref_mem_refPieces (ref_mem_consTxt hm)
      simp at this ⊢
      tauto

theorem ref_mem_flinePieces {l : List Char} {fl : FLine}
    (h : Piece.ref l ∈ flinePieces fl) : l ∈ flineRefs fl := by
  cases fl with
  | norm c0 ps => exact ref_mem_refPieces (ref_mem_consTxt h)
  | defn ind lbl ws t0 tps =>
    have h2 := ref_mem_consTxt h
    rcases List.mem_cons.mp h2 with he | hm
    · exact absurd he (by simp)
    · exact ref_mem_refPieces (ref_mem_consTxt hm)

theorem ref_mem_catPieces {l : List Char} {sep : List Char} :
    ∀ {ls : List FLine}, Piece.ref l ∈ catPieces sep ls → l ∈ allRefs ls
  | [l'], h => by
    have := ref_mem_flinePieces h
    simp [allRefs, this]
  | l' :: l2 :: rest, h => by
    rcases List.mem_append.mp h with hm | hm
    · have := ref_mem_flinePieces hm
      simp [allRefs]
      tauto
    · rcases List.mem_cons.mp hm with he | hm2
      · exact absurd he (by simp)
      · have := ref_mem_catPieces hm2
        simp [allRefs] at this ⊢
        tauto

/-! ## Label bookkeeping: first-appearance order and key order -/

theorem mem_insertUniq {l x : List Char} {acc : List (List Char)} :
    l ∈ insertUniq acc x ↔ l ∈ acc ∨ l = x := by
  unfold insertUniq
  split
  · rename_i hx
    constructor
    · exact Or.inl
    · rintro (h | h)
      · exact h
      · exact h ▸ hx
  · simp

theorem mem_foldl_insertUniq :
    ∀ (ls : List (List Char)) (acc : List (List Char)) (l : List Char),
      l ∈ List.foldl insertUniq acc ls ↔ l ∈ acc ∨ l ∈ ls
  | [], acc, l => by simp
  | x :: ls, acc, l => by
    rw [List.foldl_cons, mem_foldl_insertUniq ls (insertUniq acc x) l, mem_insertUniq]
    simp [or_assoc]

theorem mem_dedupFirst {l : List Char} {ls : List (List Char)} :
    l ∈ dedupFirst ls ↔ l ∈ ls := by
  unfold dedupFirst
  rw [mem_foldl_insertUniq]
  simp

theorem dedupFirst_ne_nil {ls : List (List Char)} (h : ls ≠ []) :
    dedupFirst ls ≠ [] := by
  obtain ⟨x, hx⟩ := List.exists_mem_of_ne_nil ls h
  intro he
  have : x ∈ dedupFirst ls := mem_dedupFirst.mpr hx
  rw [he] at this
  exact List.not_mem_nil x this

theorem mem_insertIdxKey {l x : List Char} :
    ∀ {ys : List (List Char)}, l ∈ insertIdxKey x ys ↔ l = x ∨ l ∈ ys
  | [] => by simp [insertIdxKey]
  | y :: ys => by
    unfold insertIdxKey
    split
    · rw [List.mem_cons, mem_insertIdxKey, List.mem_cons]
      tauto
    · simp [List.mem_cons]

theorem length_insertIdxKey (x : List Char) :
    ∀ ys : List (List Char), (insertIdxKey x ys).length = ys.length + 1
  | [] => rfl
  | y :: ys => by
    unfold insertIdxKey
    split
    · simp [length_insertIdxKey x ys]
    · simp

theorem mem_foldl_insertIdxKey :
    ∀ (ks : List (List Char)) (acc : List (List Char)) (l : List Char),
      l ∈ List.foldl (fun acc x => insertIdxKey x acc) acc ks ↔ l ∈ acc ∨ l ∈ ks
  | [], acc, l => by simp
  | x :: ks, acc, l => by
    rw [List.foldl_cons, mem_foldl_insertIdxKey ks _ l, mem_insertIdxKey]
    simp
    tauto

theorem length_foldl_insertIdxKey :
    ∀ (ks : List (List Char)) (acc : List (List Char)),
      (List.foldl (fun acc x => insertIdxKey x acc) acc ks).length =
        acc.length + ks.length
  | [], acc => by simp
  | x :: ks, acc => by
    rw [List.foldl_cons, length_foldl_insertIdxKey ks _]
    rw [length_insertIdxKey]
    simp
    omega

theorem length_filter_partition (p : List Char → Bool) :
    ∀ ls : List (List Char),
      (ls.filter p).length + (ls.filter (fun x => !p x)).length = ls.length
  | [] => rfl
  | x :: ls => by
    have ih := length_filter_partition p ls
    rw [List.filter_cons, List.filter_cons]
    by_cases hx : p x = true
    · simp [hx]
      omega
    · simp only [Bool.not_eq_true] at hx
      simp [hx]
      omega

theorem mem_jsKeyOrder {l : List Char} {ls : List (List Char)} :
    l ∈ jsKeyOrder ls ↔ l ∈ ls := by
  unfold jsKeyOrder
  rw [List.mem_append, mem_foldl_insertIdxKey]
  simp only [List.mem_filter, List.not_mem_nil, false_or]
  constructor
  · rintro (⟨h, _⟩ | ⟨h, _⟩) <;> exact h
  · intro h
    by_cases hx : isArrayIndexKey l = true
    · exact Or.inl ⟨h, hx⟩
    · exact Or.inr ⟨h, by simpa using hx⟩

theorem length_jsKeyOrder (ls : List (List Char)) :
    (jsKeyOrder ls).length = ls.length := by
  unfold jsKeyOrder
  rw [List.length_append, length_foldl_insertIdxKey]
  simp only [List.length_nil, Nat.zero_add]
  exact length_filter_partition isArrayIndexKey ls

theorem allRefs_clean {lines : List FLine} (h : famOKB lines = true) :
    ∀ l ∈ allRefs lines, cleanLblB l = true := by
  intro l hl
  simp only [allRefs, List.mem_flatten, List.mem_map] at hl
  obtain ⟨r, ⟨fl, hfl, hre⟩, hlr⟩ := hl
  subst hre
  have hok : flineOkB fl = true := by
    simp only [famOKB, List.all_eq_true] at h
    exact h fl hfl
  cases fl with
  | norm c0 ps =>
    obtain ⟨_, h2⟩ := flineOk_norm hok
    simp only [flineRefs, List.mem_map] at hlr
    obtain ⟨p, hp, hpe⟩ := hlr
    subst hpe
    simp only [pairsOkB, List.all_eq_true, Bool.and_eq_true] at h2
    exact (h2 p hp).1.1
  | defn ind lbl ws t0 tps =>
    obtain ⟨_, _, _, _, _, h6⟩ := flineOk_defn hok
    simp only [flineRefs, List.mem_map] at hlr
    obtain ⟨p, hp, hpe⟩ := hlr
    subst hpe
    simp only [pairsOkB, List.all_eq_true, Bool.and_eq_true] at h6
    exact (h6 p hp).1.1

theorem famOKB_keptLines {numOf : List Char → Option Nat} {lines : List FLine}
    (h : famOKB lines = true) : famOKB (keptLines numOf lines) = true := by
  simp only [famOKB, List.all_eq_true] at h ⊢
  intro fl hfl
  exact h fl (List.mem_of_mem_filter hfl)

theorem allRefs_keptLines_sub {numOf : List Char → Option Nat} {lines : List FLine}
    {l : List Char} (h : l ∈ allRefs (keptLines numOf lines)) : l ∈ allRefs lines := by
  simp only [allRefs, List.mem_flatten, List.mem_map] at h ⊢
  obtain ⟨r, ⟨fl, hfl, hre⟩, hlr⟩ := h
  exact ⟨r, ⟨fl, List.mem_of_mem_filter hfl, hre⟩, hlr⟩

theorem pairsOkB_subst (numOf : List Char → Option Nat)
    {ps : List (List Char × List Char)} (h : pairsOkB ps = true) :
    pairsOkB (ps.map (fun p => (mapLbl numOf p.1, p.2))) = true := by
  simp only [pairsOkB, List.all_eq_true, Bool.and_eq_true] at h ⊢
  intro p hp
  simp only [List.mem_map] at hp
  obtain ⟨q, hq, hqe⟩ := hp
  subst hqe
  have := h q hq
  exact ⟨⟨cleanLblB_natToStr _, this.1.2⟩, this.2⟩

theorem flineOkB_subst (numOf : List Char → Option Nat) {fl : FLine}
    (h : flineOkB fl = true) : flineOkB (substFLine (mapLbl numOf) fl) = true := by
  cases fl with
  | norm c0 ps =>
    obtain ⟨h1, h2⟩ := flineOk_norm h
    show flineOkB (.norm c0 (ps.map _)) = true
    simp only [flineOkB, Bool.and_eq_true]
    exact ⟨h1, pairsOkB_subst numOf h2⟩
  | defn ind lbl ws t0 tps =>
    obtain ⟨h1, h2, h3, h4, h5, h6⟩ := flineOk_defn h
    show flineOkB (.defn ind lbl ws t0 (tps.map _)) = true
    simp only [flineOkB, Bool.and_eq_true]
    exact ⟨⟨⟨⟨⟨h1, h2⟩, h3⟩, h4⟩, h5⟩, pairsOkB_subst numOf h6⟩

theorem famOKB_map_subst (numOf : List Char → Option Nat) {ls : List FLine}
    (h : famOKB ls = true) : famOKB (ls.map (substFLine (mapLbl numOf))) = true := by
  simp only [famOKB, List.all_eq_true] at h ⊢
  intro fl hfl
  simp only [List.mem_map] at hfl
  obtain ⟨fl0, hfl0, hfe⟩ := hfl
  subst hfe
  exact flineOkB_subst numOf (h fl0 hfl0)

theorem famBody_kept (numOf : List Char → Option Nat) :
    ∀ lines : List FLine,
      lines.filterMap (famBodyLine numOf) =
        (keptLines numOf lines).map (fun fl => flineStr (substFLine (mapLbl numOf) fl))
  | [] => rfl
  | .norm c0 ps :: rest => by
    have ih := famBody_kept numOf rest
    simp only [List.filterMap_cons, famBodyLine]
    rw [ih]
    unfold keptLines
    rw [List.filter_cons]
    simp only [isLiveDef, Bool.not_false, if_pos, List.map_cons]
    rfl
  | .defn ind lbl ws t0 tps :: rest => by
    have ih := famBody_kept numOf rest
    cases hn : numOf lbl with
    | some n =>
      simp only [List.filterMap_cons, famBodyLine, hn]
      rw [ih]
      unfold keptLines
      rw [List.filter_cons]
      simp [isLiveDef, hn]
    | none =>
      simp only [List.filterMap_cons, famBodyLine, hn]
      rw [ih]
      unfold keptLines
      rw [List.filter_cons]
      simp only [isLiveDef, hn, Option.isSome_none, Bool.not_false, if_pos, List.map_cons]
      rw [show substFLine (mapLbl numOf) (FLine.defn ind lbl ws t0 tps) =
        FLine.defn ind lbl ws t0 (tps.map fun p => (mapLbl numOf p.1, p.2)) from rfl]
      rfl

theorem length_insertDef (d : FootnoteDef) :
    ∀ ds : List FootnoteDef, (insertDef d ds).length = ds.length + 1
  | [] => rfl
  | e :: es => by
    unfold insertDef
    split
    · simp [length_insertDef d es]
    · simp

theorem length_sortDefs_aux :
    ∀ (ds acc : List FootnoteDef),
      (List.foldl (fun acc d => insertDef d acc) acc ds).length =
        acc.length + ds.length
  | [], acc => by simp
  | d :: ds, acc => by
    rw [List.foldl_cons, length_sortDefs_aux ds _, length_insertDef]
    simp
    omega

theorem length_sortDefs (ds : List FootnoteDef) : (sortDefs ds).length = ds.length := by
  unfold sortDefs
  rw [length_sortDefs_aux]
  simp

theorem sortDefs_ne_nil {ds : List FootnoteDef} (h : ds ≠ []) : sortDefs ds ≠ [] := by
  intro he
  apply h
  have := length_sortDefs ds
  rw [he] at this
  simpa using this.symm

/-! ## The engine on the structured family -/

theorem renumber_famDoc (crlf : Bool) (lines : List FLine) (draws : Nat → List Char)
    (hok : famOKB lines = true)
    (hne : allRefs lines ≠ [])
    (hdr : drawsOK (dedupFirst (allRefs lines)).length (allRefs lines) draws)
    (hcr : crlf = true → 2 ≤ lines.length) :
    renumberFootnotes draws (famDoc crlf lines) =
      ⟨famResult crlf lines, decide (famResult crlf lines ≠ famDoc crlf lines),
        (dedupFirst (allRefs lines)).length⟩ := by
  have hfind : findRefs (famDoc crlf lines) = allRefs lines :=
    findRefs_famDoc crlf lines hok
  have hdoc_ne : famDoc crlf lines ≠ [] := by
    intro he
    apply hne
    rw [← hfind, he, findRefs_nil]
  have hlines_ne : lines ≠ [] := by
    intro he
    apply hne
    rw [he]
    rfl
  have hord_ne : dedupFirst (findRefs (famDoc crlf lines)) ≠ [] := by
    rw [hfind]
    exact dedupFirst_ne_nil hne
  have hcrlf_eq : crlfInfix (famDoc crlf lines) = crlf := by
    cases hc : crlf with
    | false => exact crlfInfix_famDoc_false hok
    | true =>
      have h2 := hcr hc
      cases lines with
      | nil => simp at h2
      | cons l1 t =>
        cases t with
        | nil => simp at h2
        | cons l2 r => exact crlfInfix_famDoc_true l1 l2 r
  have hsepeq : (if crlfInfix (famDoc crlf lines) = true then ['\r', '\n'] else ['\n']) =
      famSep crlf := by
    rw [hcrlf_eq]
    cases crlf <;> rfl
  have hsplit : splitLines (famDoc crlf lines) = lines.map flineStr := by
    unfold famDoc
    refine splitLines_joinSep crlf (lines.map flineStr) (by simpa using hlines_ne) ?_
    intro line hl c hc
    obtain ⟨fl, hfl, rfl⟩ := List.mem_map.mp hl
    have hfok : flineOkB fl = true := by
      simp only [famOKB, List.all_eq_true] at hok
      exact hok fl hfl
    exact flineStr_clean hfok c hc
  have hkeptok : famOKB (keptLines (labelNumber (dedupFirst (allRefs lines))) lines) =
      true := famOKB_keptLines hok
  have hps : piecesOk (catPieces (famSep crlf)
      (keptLines (labelNumber (dedupFirst (allRefs lines))) lines)) = true :=
    piecesOk_catPieces crlf hkeptok
  have hlbl : ∀ m ∈ jsKeyOrder (dedupFirst (allRefs lines)), cleanLblB m = true := by
    intro m hm
    exact allRefs_clean hok m (mem_dedupFirst.mp (mem_jsKeyOrder.mp hm))
  have hfresh : ∀ j, j < (jsKeyOrder (dedupFirst (allRefs lines))).length →
      ∀ m ∈ jsKeyOrder (dedupFirst (allRefs lines)), placeholderOf (draws j) ≠ m := by
    intro j hj m hm
    rw [length_jsKeyOrder] at hj
    exact (hdr j (List.mem_range.mpr hj)).2.2 m
      (mem_dedupFirst.mp (mem_jsKeyOrder.mp hm))
  have hclean : ∀ j, j < (jsKeyOrder (dedupFirst (allRefs lines))).length →
      cleanLblB (placeholderOf (draws j)) = true := by
    intro j hj
    rw [length_jsKeyOrder] at hj
    exact (hdr j (List.mem_range.mpr hj)).1
  have hinj : ∀ a, a < (jsKeyOrder (dedupFirst (allRefs lines))).length →
      ∀ b, b < (jsKeyOrder (dedupFirst (allRefs lines))).length →
      a ≠ b → draws a ≠ draws b := by
    intro a ha b hb hab
    rw [length_jsKeyOrder] at ha hb
    exact (hdr a (List.mem_range.mpr ha)).2.1 b (List.mem_range.mpr hb) hab
  have hrefs : ∀ l, Piece.ref l ∈ catPieces (famSep crlf)
      (keptLines (labelNumber (dedupFirst (allRefs lines))) lines) →
      l ∈ jsKeyOrder (dedupFirst (allRefs lines)) := by
    intro l hl
    exact mem_jsKeyOrder.mpr (mem_dedupFirst.mpr
      (allRefs_keptLines_sub (ref_mem_catPieces hl)))
  have hpass : pass2 (tempMap (labelPlaceholders draws
        (labelNumber (dedupFirst (allRefs lines)))
        (jsKeyOrder (dedupFirst (allRefs lines))) 0))
      (pass1 (labelPlaceholders draws (labelNumber (dedupFirst (allRefs lines)))
        (jsKeyOrder (dedupFirst (allRefs lines))) 0)
        (joinSep (famSep crlf)
          ((keptLines (labelNumber (dedupFirst (allRefs lines))) lines).map flineStr))) =
      joinSep (famSep crlf)
        (lines.filterMap (famBodyLine (labelNumber (dedupFirst (allRefs lines))))) := by
    rw [← catPieces_render]
    rw [twoPass_render draws (labelNumber (dedupFirst (allRefs lines)))
      (jsKeyOrder (dedupFirst (allRefs lines))) _ hps hlbl hfresh hclean hinj hrefs]
    rw [mapRefs_catPieces, catPieces_render, List.map_map,
      famBody_kept (labelNumber (dedupFirst (allRefs lines))) lines]
    rfl
  have hbodyclean : ∀ line ∈ lines.filterMap
      (famBodyLine (labelNumber (dedupFirst (allRefs lines)))),
      ∀ c ∈ line, c ≠ '\n' ∧ c ≠ '\r' := by
    intro line hl c hc
    rw [famBody_kept] at hl
    obtain ⟨fl, hfl, rfl⟩ := List.mem_map.mp hl
    have h2 := hkeptok
    simp only [famOKB, List.all_eq_true] at h2
    exact flineStr_clean
      (flineOkB_subst (labelNumber (dedupFirst (allRefs lines))) (h2 fl hfl)) c hc
  have hsplit2 : splitLines (joinSep (famSep crlf)
        (lines.filterMap (famBodyLine (labelNumber (dedupFirst (allRefs lines)))))) =
      (if (lines.filterMap
          (famBodyLine (labelNumber (dedupFirst (allRefs lines))))).isEmpty
        then [[]]
        else lines.filterMap (famBodyLine (labelNumber (dedupFirst (allRefs lines))))) := by
    by_cases hb : lines.filterMap
        (famBodyLine (labelNumber (dedupFirst (allRefs lines)))) = []
    · rw [hb]
      rfl
    · rw [if_neg (by simpa [List.isEmpty_iff] using hb)]
      exact splitLines_joinSep crlf _ hb hbodyclean
  unfold renumberFootnotes
  rw [if_neg hdoc_ne]
  simp only [if_neg hord_ne]
  rw [hfind, hsepeq, hsplit,
    collectDefs_fam (labelNumber (dedupFirst (allRefs lines))) lines hok]
  simp only [hpass, hsplit2]
  have hfin : ∀ x : List Char, x = famResult crlf lines →
      (⟨x, decide (x ≠ famDoc crlf lines), (dedupFirst (allRefs lines)).length⟩ :
        FootnoteRenumberResult) =
      ⟨famResult crlf lines, decide (famResult crlf lines ≠ famDoc crlf lines),
        (dedupFirst (allRefs lines)).length⟩ := by
    intro x h
    rw [h]
  apply hfin
  unfold famResult
  by_cases hd : famDefs (labelNumber (dedupFirst (allRefs lines))) lines = []
  · simp [hd, show sortDefs ([] : List FootnoteDef) = [] from rfl]
  · have h2 := sortDefs_ne_nil hd
    simp only [if_neg hd, if_neg h2]
    unfold padSep
    by_cases ht0 : countTrailingBlank
        (if (lines.filterMap
            (famBodyLine (labelNumber (dedupFirst (allRefs lines))))).isEmpty
          then [[]]
          else lines.filterMap
            (famBodyLine (labelNumber (dedupFirst (allRefs lines))))) = 0
    · simp only [if_pos ht0]
      simp [List.append_assoc]
    · simp only [if_neg ht0]
      by_cases ht1 : countTrailingBlank
          (if (lines.filterMap
              (famBodyLine (labelNumber (dedupFirst (allRefs lines))))).isEmpty
            then [[]]
            else lines.filterMap
              (famBodyLine (labelNumber (dedupFirst (allRefs lines))))) = 1
      · simp only [if_pos ht1]
      · simp only [if_neg ht1]
        simp

/-! ## First-appearance numbering -/

theorem findIdx_posOf : ∀ (xs : List (List Char)) (i : Nat) (l : List Char), l ∈ xs →
    List.findIdx? (fun x => x = l) xs i = some (i + posOf l xs)
  | x :: xs, i, l, h => by
    rw [List.findIdx?_cons]
    by_cases hx : x = l
    · rw [if_pos (by simp [hx])]
      simp [posOf, hx]
    · rw [if_neg (by simp [hx])]
      have hm : l ∈ xs := by
        rcases List.mem_cons.mp h with he | hm
        · exact absurd he.symm hx
        · exact hm
      rw [findIdx_posOf xs (i + 1) l hm]
      simp only [posOf, if_neg hx, Option.some.injEq]
      omega

theorem labelNumber_posOf {ordered : List (List Char)} {l : List Char}
    (h : l ∈ ordered) : labelNumber ordered l = some (posOf l ordered + 1) := by
  unfold labelNumber
  rw [findIdx_posOf ordered 0 l h]
  simp

theorem posOf_append_mem {l : List Char} :
    ∀ {acc : List (List Char)} (ys : List (List Char)), l ∈ acc →
      posOf l (acc ++ ys) = posOf l acc
  | a :: acc, ys, h => by
    by_cases ha : a = l
    · simp [posOf, ha]
    · have hm : l ∈ acc := by
        rcases List.mem_cons.mp h with he | hm
        · exact absurd he.symm ha
        · exact hm
      show posOf l (a :: (acc ++ ys)) = _
      simp only [posOf, if_neg ha]
      rw [posOf_append_mem ys hm]

theorem posOf_append_self {l : List Char} :
    ∀ {acc : List (List Char)}, l ∉ acc → posOf l (acc ++ [l]) = acc.length
  | [], _ => by simp [posOf]
  | a :: acc, h => by
    have ha : a ≠ l := fun he => h (he ▸ List.mem_cons_self a acc)
    have hm : l ∉ acc := fun hm => h (List.mem_cons_of_mem a hm)
    show posOf l (a :: (acc ++ [l])) = acc.length + 1
    simp only [posOf, if_neg ha]
    rw [posOf_append_self hm]

theorem posOf_insertUniq_mem {l x : List Char} {acc : List (List Char)}
    (h : l ∈ acc) : posOf l (insertUniq acc x) = posOf l acc := by
  unfold insertUniq
  split
  · rfl
  · exact posOf_append_mem [x] h

theorem posOf_foldl_mem {l : List Char} :
    ∀ (ls : List (List Char)) {acc : List (List Char)}, l ∈ acc →
      posOf l (List.foldl insertUniq acc ls) = posOf l acc
  | [], acc, h => rfl
  | x :: ls, acc, h => by
    rw [List.foldl_cons,
      posOf_foldl_mem ls (mem_insertUniq.mpr (Or.inl h)),
      posOf_insertUniq_mem h]

theorem posOf_foldl_first {l : List Char} :
    ∀ (ls : List (List Char)) (acc : List (List Char)), l ∉ acc → l ∈ ls →
      posOf l (List.foldl insertUniq acc ls) =
        (List.foldl insertUniq acc (ls.takeWhile (fun x => x ≠ l))).length
  | x :: ls, acc, hacc, hmem => by
    by_cases hx : x = l
    · have htw : (x :: ls).takeWhile (fun x => x ≠ l) = [] := by
        simp [List.takeWhile_cons, hx]
      rw [htw, List.foldl_cons]
      show posOf l (List.foldl insertUniq (insertUniq acc x) ls) = acc.length
      have hins : insertUniq acc x = acc ++ [l] := by
        unfold insertUniq
        rw [if_neg (hx ▸ hacc), hx]
      rw [hins, posOf_foldl_mem ls (by simp), posOf_append_self hacc]
    · have hm : l ∈ ls := by
        rcases List.mem_cons.mp hmem with he | hm
        · exact absurd he.symm hx
        · exact hm
      have htw : (x :: ls).takeWhile (fun x => x ≠ l) =
          x :: ls.takeWhile (fun x => x ≠ l) := by
        simp [List.takeWhile_cons, hx]
      rw [htw, List.foldl_cons, List.foldl_cons]
      have hacc2 : l ∉ insertUniq acc x := by
        intro h2
        rcases mem_insertUniq.mp h2 with h3 | h3
        · exact hacc h3
        · exact hx h3.symm
      exact posOf_foldl_first ls (insertUniq acc x) hacc2 hm

theorem posOf_dedupFirst {l : List Char} {ls : List (List Char)} (h : l ∈ ls) :
    posOf l (dedupFirst ls) =
      (dedupFirst (ls.takeWhile (fun x => x ≠ l))).length := by
  unfold dedupFirst
  exact posOf_foldl_first ls [] (by simp) h

theorem labelNumber_first_appearance {ls : List (List Char)} {l : List Char}
    (h : l ∈ ls) :
    labelNumber (dedupFirst ls) l =
      some ((dedupFirst (ls.takeWhile (fun x => x ≠ l))).length + 1) := by
  rw [labelNumber_posOf (mem_dedupFirst.mpr h), posOf_dedupFirst h]

/-! ## Locating the appended definition block -/

theorem infixOf_of_isPre {p s : List Char} (h : isPre p s = true) :
    infixOf p s = true := by
  cases s with
  | nil => exact h
  | cons c rest =>
    show (isPre p (c :: rest) || infixOf p rest) = true
    rw [h]
    rfl

theorem infixOf_append_left {p s : List Char} :
    ∀ a : List Char, infixOf p s = true → infixOf p (a ++ s) = true
  | [], h => h
  | c :: a, h => by
    show (isPre p (c :: (a ++ s)) || infixOf p (a ++ s)) = true
    rw [infixOf_append_left a h]
    simp

theorem isPre_self (p : List Char) : isPre p p = true := by
  have h := isPre_append_self p []
  simpa using h

theorem infix_mem_joinSep {sep x : List Char} :
    ∀ {ls : List (List Char)}, x ∈ ls → infixOf x (joinSep sep ls) = true
  | [x'], h => by
    simp only [List.mem_singleton] at h
    subst h
    rw [joinSep_single]
    exact infixOf_of_isPre (isPre_self x)
  | l :: l2 :: rest, h => by
    rw [joinSep_cons2]
    rcases List.mem_cons.mp h with he | hm
    · subst he
      rw [List.append_assoc]
      exact infixOf_of_isPre (isPre_append_self x _)
    · exact infixOf_append_left (l ++ sep) (infix_mem_joinSep hm)

theorem mem_famDefs {numOf : List Char → Option Nat}
    {ind lbl ws t0 : List Char} {tps : List (List Char × List Char)} {n : Nat} :
    ∀ {lines : List FLine}, FLine.defn ind lbl ws t0 tps ∈ lines →
      numOf lbl = some n →
      (⟨lbl, n, refsStr t0 tps, ind⟩ : FootnoteDef) ∈ famDefs numOf lines
  | fl :: rest, hmem, hn => by
    rcases List.mem_cons.mp hmem with he | hm
    · subst he
      show _ ∈ famDefs numOf (FLine.defn ind lbl ws t0 tps :: rest)
      simp only [famDefs, hn]
      exact List.mem_cons_self _ _
    · have ih := mem_famDefs hm hn
      cases fl with
      | norm c0 ps => exact ih
      | defn ind2 lbl2 ws2 t02 tps2 =>
        show _ ∈ famDefs numOf (FLine.defn ind2 lbl2 ws2 t02 tps2 :: rest)
        simp only [famDefs]
        cases hn2 : numOf lbl2 with
        | some n2 => exact List.mem_cons_of_mem _ ih
        | none => exact ih

theorem mem_insertDef {d' d : FootnoteDef} :
    ∀ {ds : List FootnoteDef}, d' ∈ insertDef d ds ↔ d' = d ∨ d' ∈ ds
  | [] => by simp [insertDef]
  | e :: es => by
    unfold insertDef
    split
    · rw [List.mem_cons, mem_insertDef, List.mem_cons]
      tauto
    · simp [List.mem_cons]

theorem mem_foldl_insertDef {d : FootnoteDef} :
    ∀ (ds acc : List FootnoteDef), d ∈ acc ∨ d ∈ ds →
      d ∈ List.foldl (fun acc e => insertDef e acc) acc ds
  | [], acc, h => by simpa using h
  | e :: ds, acc, h => by
    rw [List.foldl_cons]
    apply mem_foldl_insertDef ds (insertDef e acc)
    rcases h with h | h
    · exact Or.inl (mem_insertDef.mpr (Or.inr h))
    · rcases List.mem_cons.mp h with he | hm
      · exact Or.inl (mem_insertDef.mpr (Or.inl he))
      · exact Or.inr hm

theorem mem_sortDefs {d : FootnoteDef} {ds : List FootnoteDef} (h : d ∈ ds) :
    d ∈ sortDefs ds :=
  mem_foldl_insertDef ds [] (Or.inr h)

theorem defLine_infix_famResult (crlf : Bool) {lines : List FLine}
    {ind lbl ws t0 : List Char} {tps : List (List Char × List Char)} {n : Nat}
    (hmem : FLine.defn ind lbl ws t0 tps ∈ lines)
    (hn : labelNumber (dedupFirst (allRefs lines)) lbl = some n) :
    infixOf (ind ++ mkRef (natToStr n) ++ ':' :: ' ' :: refsStr t0 tps)
      (famResult crlf lines) = true := by
  have hs : (⟨lbl, n, refsStr t0 tps, ind⟩ : FootnoteDef) ∈
      sortDefs (famDefs (labelNumber (dedupFirst (allRefs lines))) lines) :=
    mem_sortDefs (mem_famDefs hmem hn)
  have hlive_ne : sortDefs (famDefs (labelNumber (dedupFirst (allRefs lines))) lines)
      ≠ [] := List.ne_nil_of_mem hs
  unfold famResult
  simp only [if_neg hlive_ne]
  apply infixOf_append_left
  have hd : ind ++ mkRef (natToStr n) ++ ':' :: ' ' :: refsStr t0 tps =
      defLineOut ⟨lbl, n, refsStr t0 tps, ind⟩ := by
    simp [defLineOut]
  rw [hd]
  exact infix_mem_joinSep (List.mem_map_of_mem defLineOut hs)

/-! ## The simultaneous substitution of the specification -/

theorem substSimF_fuel (numOf : List Char → Option Nat) :
    ∀ (f1 : Nat), ∀ (f2 : Nat) (s : List Char), s.length < f1 → s.length < f2 →
      substSimF numOf f1 s = substSimF numOf f2 s := by
  intro f1
  induction f1 with
  | zero => intro f2 s h1 _; omega
  | succ n ih =>
    intro f2 s h1 h2
    match f2, s with
    | 0, s => omega
    | m + 1, [] => rfl
    | m + 1, c :: rest =>
      simp only [substSimF]
      cases h : matchRefAt (c :: rest) with
      | none =>
        simp only [List.length_cons] at h1 h2
        exact congrArg (c :: ·) (ih m rest (by omega) (by omega))
      | some lr =>
        obtain ⟨l, r⟩ := lr
        have hlen := matchRefAt_length h
        simp only [List.length_cons] at h1 h2 hlen
        exact congrArg (_ ++ ·) (ih m r (by omega) (by omega))

theorem substSim_cons_none {numOf : List Char → Option Nat} {c : Char} {s : List Char}
    (h : matchRefAt (c :: s) = none) :
    substSimAll numOf (c :: s) = c :: substSimAll numOf s := by
  unfold substSimAll
  simp only [substSimF, List.length_cons, h]

theorem substSim_cons_some {numOf : List Char → Option Nat} {c : Char}
    {s l r : List Char} (h : matchRefAt (c :: s) = some (l, r)) :
    substSimAll numOf (c :: s) =
      (match numOf l with
       | some n => mkRef (natToStr n)
       | none => mkRef l) ++ substSimAll numOf r := by
  unfold substSimAll
  simp only [substSimF, List.length_cons, h]
  have hlen := matchRefAt_length h
  simp only [List.length_cons] at hlen
  exact congrArg (_ ++ ·) (substSimF_fuel numOf _ _ r (by omega) (by omega))

theorem substSim_skip {numOf : List Char → Option Nat} :
    ∀ {pre s : List Char}, (∀ c ∈ pre, c ≠ '[') →
      substSimAll numOf (pre ++ s) = pre ++ substSimAll numOf s := by
  intro pre
  induction pre with
  | nil => intro s _; rfl
  | cons c p ih =>
    intro s h
    have hc : c ≠ '[' := h c (List.mem_cons_self c p)
    rw [List.cons_append, substSim_cons_none (matchRefAt_not_lb hc)]
    rw [ih (fun x hx => h x (List.mem_cons_of_mem c hx))]
    rfl

theorem substSim_ref {numOf : List Char → Option Nat} {l : List Char} (s : List Char)
    (hl : cleanLblB l = true) (hs : lookaheadOk s = true) :
    substSimAll numOf (mkRef l ++ s) =
      (match numOf l with
       | some n => mkRef (natToStr n)
       | none => mkRef l) ++ substSimAll numOf s := by
  have h := matchRefAt_ref s hl hs
  have harr : mkRef l ++ s = '[' :: ('^' :: (l ++ ']' :: s)) := by simp [mkRef]
  rw [harr] at h ⊢
  exact substSim_cons_some h

theorem substSim_defOpen {numOf : List Char → Option Nat} {l : List Char}
    (s : List Char) (hl : cleanLblB l = true) :
    substSimAll numOf (mkRef l ++ ':' :: s) =
      mkRef l ++ ':' :: substSimAll numOf s := by
  have h := matchRefAt_defOpen s hl
  have harr : mkRef l ++ ':' :: s = '[' :: (('^' :: (l ++ [']', ':'])) ++ s) := by
    simp [mkRef]
  rw [harr] at h ⊢
  rw [substSim_cons_none (by rw [← List.cons_append]; exact h)]
  rw [substSim_skip ?hc]
  · simp [mkRef]
  case hc =>
    intro c hc
    rcases List.mem_cons.mp hc with he | hm
    · subst he; decide
    · rcases List.mem_append.mp hm with h1 | h2
      · exact (cleanLbl_mem hl c h1).1
      · simp only [List.mem_cons, List.mem_singleton] at h2
        rcases h2 with he | he | he
        · subst he; decide
        · subst he; decide
        · exact absurd he (List.not_mem_nil c)

theorem substSim_render {numOf : List Char → Option Nat} :
    ∀ {ps : List Piece}, piecesOk ps = true →
      (∀ l, Piece.ref l ∈ ps → cleanLblB l = true) →
      (∀ l, Piece.dref l ∈ ps → cleanLblB l = true) →
      substSimAll numOf (renderPs ps) =
        renderPs (mapRefs (fun l =>
          match numOf l with
          | some n => natToStr n
          | none => l) ps)
  | [], _, _, _ => rfl
  | .txt c :: rest, h, hr, hd => by
    obtain ⟨_, h2, h3⟩ := piecesOk_txt h
    rw [renderPs_cons]
    show substSimAll numOf (c ++ renderPs rest) = _
    rw [substSim_skip (fun x hx => (h2 x hx))]
    rw [substSim_render h3 (fun l hl => hr l (List.mem_cons_of_mem _ hl))
      (fun l hl => hd l (List.mem_cons_of_mem _ hl))]
    rfl
  | .ref l :: rest, h, hr, hd => by
    obtain ⟨_, h2, h3⟩ := piecesOk_ref h
    have hcl : cleanLblB l = true := hr l (List.mem_cons_self _ _)
    rw [renderPs_cons]
    show substSimAll numOf (mkRef l ++ renderPs rest) = _
    rw [substSim_ref _ hcl (lookahead_render h3 h2)]
    rw [substSim_render h3 (fun l2 hl2 => hr l2 (List.mem_cons_of_mem _ hl2))
      (fun l2 hl2 => hd l2 (List.mem_cons_of_mem _ hl2))]
    cases hn : numOf l <;> simp [hn, renderPs_cons, renderP, mapRefs]
  | .dref l :: rest, h, hr, hd => by
    obtain ⟨_, h3⟩ := piecesOk_dref h
    have hcl : cleanLblB l = true := hd l (List.mem_cons_self _ _)
    rw [renderPs_cons]
    have harr : renderP (Piece.dref l) ++ renderPs rest =
        mkRef l ++ ':' :: renderPs rest := by
      simp [renderP]
    rw [harr, substSim_defOpen _ hcl]
    rw [substSim_render h3 (fun l2 hl2 => hr l2 (List.mem_cons_of_mem _ hl2))
      (fun l2 hl2 => hd l2 (List.mem_cons_of_mem _ hl2))]
    simp [mapRefs, renderPs_cons, renderP]

theorem crlfInfix_famDoc {crlf : Bool} {lines : List FLine}
    (hok : famOKB lines = true) (hcr : crlf = true → 2 ≤ lines.length) :
    crlfInfix (famDoc crlf lines) = crlf := by
  cases hc : crlf with
  | false => exact crlfInfix_famDoc_false hok
  | true =>
    have h2 := hcr hc
    cases lines with
    | nil => simp at h2
    | cons l1 t =>
      cases t with
      | nil => simp at h2
      | cons l2 r => exact crlfInfix_famDoc_true l1 l2 r

theorem dref_mem_consTxt {l : List Char} {c : List Char} {ps : List Piece}
    (h : Piece.dref l ∈ consTxt c ps) : Piece.dref l ∈ ps := by
  unfold consTxt at h
  split at h
  · exact h
  · rcases List.mem_cons.mp h with he | hm
    · exact absurd he (by simp)
    · exact hm

theorem dref_not_mem_refPieces {l : List Char} :
    ∀ {ps : List (List Char × List Char)}, Piece.dref l ∈ refPieces ps → False
  | p :: rest, h => by
    rcases List.mem_cons.mp h with he | hm
    · exact absurd he (by simp)
    · exact dref_not_mem_refPieces (dref_mem_consTxt hm)

theorem dref_mem_flinePieces {l : List Char} {fl : FLine}
    (h : Piece.dref l ∈ flinePieces fl) :
    ∃ ind ws t0 tps, fl = FLine.defn ind l ws t0 tps := by
  cases fl with
  | norm c0 ps => exact absurd (dref_not_mem_refPieces (dref_mem_consTxt h)) id
  | defn ind lbl ws t0 tps =>
    have h2 := dref_mem_consTxt h
    rcases List.mem_cons.mp h2 with he | hm
    · simp only [Piece.dref.injEq] at he
      exact ⟨ind, ws, t0, tps, by rw [he]⟩
    · exact absurd (dref_not_mem_refPieces (dref_mem_consTxt hm)) id

theorem dref_mem_catPieces {l : List Char} {sep : List Char} :
    ∀ {ls : List FLine}, Piece.dref l ∈ catPieces sep ls →
      ∃ ind ws t0 tps, FLine.defn ind l ws t0 tps ∈ ls
  | [l'], h => by
    obtain ⟨ind, ws, t0, tps, he⟩ := dref_mem_flinePieces h
    exact ⟨ind, ws, t0, tps, he ▸ List.mem_cons_self _ _⟩
  | l' :: l2 :: rest, h => by
    rcases List.mem_append.mp h with hm | hm
    · obtain ⟨ind, ws, t0, tps, he⟩ := dref_mem_flinePieces hm
      exact ⟨ind, ws, t0, tps, he ▸ List.mem_cons_self _ _⟩
    · rcases List.mem_cons.mp hm with he | hm2
      · exact absurd he (by simp)
      · obtain ⟨ind, ws, t0, tps, hmem⟩ := dref_mem_catPieces hm2
        exact ⟨ind, ws, t0, tps, List.mem_cons_of_mem _ hmem⟩

theorem defn_label_clean {lines : List FLine} (hok : famOKB lines = true)
    {ind l ws t0 : List Char} {tps : List (List Char × List Char)}
    (h : FLine.defn ind l ws t0 tps ∈ lines) : cleanLblB l = true := by
  simp only [famOKB, List.all_eq_true] at hok
  exact (flineOk_defn (hok _ h)).2.1

theorem mem_allRefs_of_line {lines : List FLine} {fl : FLine} {l : List Char}
    (hfl : fl ∈ lines) (hl : l ∈ flineRefs fl) : l ∈ allRefs lines := by
  simp only [allRefs, List.mem_flatten, List.mem_map]
  exact ⟨flineRefs fl, ⟨fl, hfl, rfl⟩, hl⟩

/-! ## The claims -/

/-- C1: the spec asserts idempotence — rerunning the engine on its own
output reports `changed = false`.  The code violates this: a reference
occurring only inside a live definition's trailing text is counted and
numbered, but the definition line is reassembled from the original text,
so the first output still carries the old label there; the second run
then reclassifies that definition as orphaned and rewrites the document
again, with `changed = true`. -/
theorem renumber_not_idempotent :
    (renumberFootnotes stdDraws (lit "x[^a]\n\n[^a]: [^b]\n\n[^b]: B")).content =
      lit "x[^1]\n\n[^1]: [^b]\n[^2]: B" ∧
    (renumberFootnotes stdDraws ((renumberFootnotes stdDraws
        (lit "x[^a]\n\n[^a]: [^b]\n\n[^b]: B")).content)).content =
      lit "x[^1]\n\n[^2]: B\n\n[^1]: [^b]" ∧
    (renumberFootnotes stdDraws ((renumberFootnotes stdDraws
        (lit "x[^a]\n\n[^a]: [^b]\n\n[^b]: B")).content)).changed = true := by
  decide

/-- C2 (counterexample): a label may itself contain `[^`, and the
per-label global replacement then rewrites an inner fragment of a later
reference.  In `x[^b] y[^a[^b]` the two distinct labels are `b` and
`a[^b` (`footnoteCount = 2`), but replacing `[^b]` first destroys the
second reference, so no occurrence of the second label is ever rewritten
to `[^2]`: the first-appearance numbering property fails. -/
theorem firstAppearance_numbering_cx :
    (renumberFootnotes stdDraws (lit "x[^b] y[^a[^b]")).footnoteCount = 2 ∧
    (renumberFootnotes stdDraws (lit "x[^b] y[^a[^b]")).content =
      lit "x[^1] y[^a[^1]" ∧
    infixOf (lit "[^2]")
      (renumberFootnotes stdDraws (lit "x[^b] y[^a[^b]")).content = false := by
  decide

/-- C2 (amended): on documents whose labels are clean (free of `[`, `]`,
backslash and line terminators) and whose placeholders are fresh, the
engine maps every referenced label to one plus the number of distinct
labels whose first reference occurs earlier — first label 1, next
newly-seen label 2, and so on — and rewrites the document accordingly. -/
theorem firstAppearance_numbering_clean (crlf : Bool) (lines : List FLine)
    (draws : Nat → List Char) (l : List Char)
    (hok : famOKB lines = true) (hne : allRefs lines ≠ [])
    (hdr : drawsOK (dedupFirst (allRefs lines)).length (allRefs lines) draws)
    (hcr : crlf = true → 2 ≤ lines.length) (hl : l ∈ allRefs lines) :
    (renumberFootnotes draws (famDoc crlf lines)).content = famResult crlf lines ∧
    famNumOf lines l =
      some ((dedupFirst ((allRefs lines).takeWhile (fun x => x ≠ l))).length + 1) := by
  refine ⟨?_, labelNumber_first_appearance hl⟩
  rw [renumber_famDoc crlf lines draws hok hne hdr hcr]

/-- C2 (witness): the document `[^b] [^a]` is wellformed; the second
newly-seen label `a` is numbered 2. -/
theorem firstAppearance_numbering_clean_witness :
    famOKB [FLine.norm [] [(lit "b", lit " "), (lit "a", [])]] = true ∧
    allRefs [FLine.norm [] [(lit "b", lit " "), (lit "a", [])]] ≠ [] ∧
    drawsOK (dedupFirst (allRefs [FLine.norm [] [(lit "b", lit " "), (lit "a", [])]])).length
      (allRefs [FLine.norm [] [(lit "b", lit " "), (lit "a", [])]]) stdDraws ∧
    (false = true → 2 ≤ [FLine.norm [] [(lit "b", lit " "), (lit "a", [])]].length) ∧
    lit "a" ∈ allRefs [FLine.norm [] [(lit "b", lit " "), (lit "a", [])]] ∧
    ((renumberFootnotes stdDraws
        (famDoc false [FLine.norm [] [(lit "b", lit " "), (lit "a", [])]])).content =
      famResult false [FLine.norm [] [(lit "b", lit " "), (lit "a", [])]] ∧
    famNumOf [FLine.norm [] [(lit "b", lit " "), (lit "a", [])]] (lit "a") =
      some ((dedupFirst ((allRefs [FLine.norm [] [(lit "b", lit " "), (lit "a", [])]]).takeWhile
        (fun x => x ≠ lit "a"))).length + 1)) :=
  ⟨by decide, by decide, by decide, by decide, by decide,
   firstAppearance_numbering_clean false [FLine.norm [] [(lit "b", lit " "), (lit "a", [])]]
     stdDraws (lit "a") (by decide) (by decide) (by decide) (by decide) (by decide)⟩

/-- C3 (counterexample): the two-phase placeholder substitution is not
equal to a simultaneous rewrite of the original reference occurrences
when one label's reference text overlaps another's.  On `u[^c] v[^e[^c]`
the engine produces `u[^1] v[^e[^1]` while the simultaneous substitution
of the specification produces `u[^1] v[^2]`. -/
theorem twoPhase_aliasing_cx :
    (renumberFootnotes stdDraws (lit "u[^c] v[^e[^c]")).content =
      lit "u[^1] v[^e[^1]" ∧
    substSimAll (labelNumber (dedupFirst (findRefs (lit "u[^c] v[^e[^c]"))))
      (lit "u[^c] v[^e[^c]") = lit "u[^1] v[^2]" ∧
    (renumberFootnotes stdDraws (lit "u[^c] v[^e[^c]")).content ≠
      substSimAll (labelNumber (dedupFirst (findRefs (lit "u[^c] v[^e[^c]"))))
        (lit "u[^c] v[^e[^c]") := by
  decide

/-- C3 (amended): on documents whose labels are clean and whose
placeholders are fresh and distinct, the two replacement passes applied
to the joined body equal one simultaneous label-to-number rewrite of all
original reference occurrences — in particular no reference is aliased by
re-matching already-rewritten text, covering the numeric swap case. -/
theorem twoPhase_matches_simultaneous (crlf : Bool) (lines : List FLine)
    (draws : Nat → List Char)
    (hok : famOKB lines = true)
    (hdr : drawsOK (dedupFirst (allRefs lines)).length (allRefs lines) draws) :
    pass2 (tempMap (labelPlaceholders draws (famNumOf lines)
        (jsKeyOrder (dedupFirst (allRefs lines))) 0))
      (pass1 (labelPlaceholders draws (famNumOf lines)
          (jsKeyOrder (dedupFirst (allRefs lines))) 0)
        (joinSep (famSep crlf) ((keptLines (famNumOf lines) lines).map flineStr))) =
    substSimAll (famNumOf lines)
      (joinSep (famSep crlf) ((keptLines (famNumOf lines) lines).map flineStr)) := by
  have hkept : famOKB (keptLines (famNumOf lines) lines) = true :=
    famOKB_keptLines hok
  have hps : piecesOk (catPieces (famSep crlf) (keptLines (famNumOf lines) lines)) =
      true := piecesOk_catPieces crlf hkept
  have hlbl : ∀ m ∈ jsKeyOrder (dedupFirst (allRefs lines)), cleanLblB m = true :=
    fun m hm => allRefs_clean hok m (mem_dedupFirst.mp (mem_jsKeyOrder.mp hm))
  have hfresh : ∀ j, j < (jsKeyOrder (dedupFirst (allRefs lines))).length →
      ∀ m ∈ jsKeyOrder (dedupFirst (allRefs lines)), placeholderOf (draws j) ≠ m := by
    intro j hj m hm
    rw [length_jsKeyOrder] at hj
    exact (hdr j (List.mem_range.mpr hj)).2.2 m
      (mem_dedupFirst.mp (mem_jsKeyOrder.mp hm))
  have hclean : ∀ j, j < (jsKeyOrder (dedupFirst (allRefs lines))).length →
      cleanLblB (placeholderOf (draws j)) = true := by
    intro j hj
    rw [length_jsKeyOrder] at hj
    exact (hdr j (List.mem_range.mpr hj)).1
  have hinj : ∀ a, a < (jsKeyOrder (dedupFirst (allRefs lines))).length →
      ∀ b, b < (jsKeyOrder (dedupFirst (allRefs lines))).length →
      a ≠ b → draws a ≠ draws b := by
    intro a ha b hb hab
    rw [length_jsKeyOrder] at ha hb
    exact (hdr a (List.mem_range.mpr ha)).2.1 b (List.mem_range.mpr hb) hab
  have hrefs : ∀ l, Piece.ref l ∈ catPieces (famSep crlf)
      (keptLines (famNumOf lines) lines) →
      l ∈ jsKeyOrder (dedupFirst (allRefs lines)) :=
    fun l hl => mem_jsKeyOrder.mpr (mem_dedupFirst.mpr
      (allRefs_keptLines_sub (ref_mem_catPieces hl)))
  rw [← catPieces_render]
  rw [twoPass_render draws (famNumOf lines)
    (jsKeyOrder (dedupFirst (allRefs lines))) _ hps hlbl hfresh hclean hinj hrefs]
  rw [substSim_render hps
    (fun l hl => allRefs_clean hok l (allRefs_keptLines_sub (ref_mem_catPieces hl)))
    (fun l hl => by
      obtain ⟨ind, ws, t0, tps, hm⟩ := dref_mem_catPieces hl
      exact defn_label_clean hok (List.mem_of_mem_filter hm))]
  apply congrArg renderPs
  apply mapRefs_congr
  intro l hl
  have hml : l ∈ allRefs lines := allRefs_keptLines_sub (ref_mem_catPieces hl)
  have hn : famNumOf lines l =
      some (posOf l (dedupFirst (allRefs lines)) + 1) :=
    labelNumber_posOf (mem_dedupFirst.mpr hml)
  simp [mapLbl, hn]

/-- C3 (witness): the swap case — labels `2` and `10`, `2` first — on the
document `[^2] [^10]` with its two definitions. -/
theorem twoPhase_matches_simultaneous_witness :
    famOKB [FLine.norm [] [(lit "2", lit " "), (lit "10", [])], FLine.norm [] [],
      FLine.defn [] (lit "10") (lit " ") (lit "ten") [],
      FLine.defn [] (lit "2") (lit " ") (lit "two") []] = true ∧
    drawsOK (dedupFirst (allRefs [FLine.norm [] [(lit "2", lit " "), (lit "10", [])],
        FLine.norm [] [], FLine.defn [] (lit "10") (lit " ") (lit "ten") [],
        FLine.defn [] (lit "2") (lit " ") (lit "two") []])).length
      (allRefs [FLine.norm [] [(lit "2", lit " "), (lit "10", [])], FLine.norm [] [],
        FLine.defn [] (lit "10") (lit " ") (lit "ten") [],
        FLine.defn [] (lit "2") (lit " ") (lit "two") []]) stdDraws ∧
    pass2 (tempMap (labelPlaceholders stdDraws
        (famNumOf [FLine.norm [] [(lit "2", lit " "), (lit "10", [])], FLine.norm [] [],
          FLine.defn [] (lit "10") (lit " ") (lit "ten") [],
          FLine.defn [] (lit "2") (lit " ") (lit "two") []])
        (jsKeyOrder (dedupFirst (allRefs [FLine.norm [] [(lit "2", lit " "), (lit "10", [])],
          FLine.norm [] [], FLine.defn [] (lit "10") (lit " ") (lit "ten") [],
          FLine.defn [] (lit "2") (lit " ") (lit "two") []]))) 0))
      (pass1 (labelPlaceholders stdDraws
          (famNumOf [FLine.norm [] [(lit "2", lit " "), (lit "10", [])], FLine.norm [] [],
            FLine.defn [] (lit "10") (lit " ") (lit "ten") [],
            FLine.defn [] (lit "2") (lit " ") (lit "two") []])
          (jsKeyOrder (dedupFirst (allRefs [FLine.norm [] [(lit "2", lit " "), (lit "10", [])],
            FLine.norm [] [], FLine.defn [] (lit "10") (lit " ") (lit "ten") [],
            FLine.defn [] (lit "2") (lit " ") (lit "two") []]))) 0)
        (joinSep (famSep false)
          ((keptLines (famNumOf [FLine.norm [] [(lit "2", lit " "), (lit "10", [])],
              FLine.norm [] [], FLine.defn [] (lit "10") (lit " ") (lit "ten") [],
              FLine.defn [] (lit "2") (lit " ") (lit "two") []])
            [FLine.norm [] [(lit "2", lit " "), (lit "10", [])], FLine.norm [] [],
              FLine.defn [] (lit "10") (lit " ") (lit "ten") [],
              FLine.defn [] (lit "2") (lit " ") (lit "two") []]).map flineStr))) =
    substSimAll (famNumOf [FLine.norm [] [(lit "2", lit " "), (lit "10", [])],
        FLine.norm [] [], FLine.defn [] (lit "10") (lit " ") (lit "ten") [],
        FLine.defn [] (lit "2") (lit " ") (lit "two") []])
      (joinSep (famSep false)
        ((keptLines (famNumOf [FLine.norm [] [(lit "2", lit " "), (lit "10", [])],
            FLine.norm [] [], FLine.defn [] (lit "10") (lit " ") (lit "ten") [],
            FLine.defn [] (lit "2") (lit " ") (lit "two") []])
          [FLine.norm [] [(lit "2", lit " "), (lit "10", [])], FLine.norm [] [],
            FLine.defn [] (lit "10") (lit " ") (lit "ten") [],
            FLine.defn [] (lit "2") (lit " ") (lit "two") []]).map flineStr)) :=
  ⟨by decide, by decide,
   twoPhase_matches_simultaneous false
     [FLine.norm [] [(lit "2", lit " "), (lit "10", [])], FLine.norm [] [],
       FLine.defn [] (lit "10") (lit " ") (lit "ten") [],
       FLine.defn [] (lit "2") (lit " ") (lit "two") []]
     stdDraws (by decide) (by decide)⟩

/-- C4 (counterexample): an orphan definition line is not byte-identical
in the output when its trailing text contains a reference — the line is
carried through the body substitution, which renumbers that reference. -/
theorem orphan_text_rewritten_cx :
    (renumberFootnotes stdDraws (lit "a[^x]\n\n[^w]: see [^x]")).content =
      lit "a[^1]\n\n[^w]: see [^1]" ∧
    (renumberFootnotes stdDraws (lit "a[^x]\n\n[^w]: see [^x]")).changed = true := by
  decide

/-- C4 (amended): an orphan definition keeps its relative position among
the body lines and its own label is never renumbered; its indentation,
label, colon and whitespace are reproduced exactly, while references in
its trailing text are renumbered like ordinary body text.  When the
trailing text contains no reference the line is byte-identical. -/
theorem orphan_kept_in_place (crlf : Bool) (lines : List FLine)
    (draws : Nat → List Char) (ind lbl ws t0 : List Char)
    (tps : List (List Char × List Char))
    (hok : famOKB lines = true) (hne : allRefs lines ≠ [])
    (hdr : drawsOK (dedupFirst (allRefs lines)).length (allRefs lines) draws)
    (hcr : crlf = true → 2 ≤ lines.length)
    (hmem : FLine.defn ind lbl ws t0 tps ∈ lines)
    (horph : famNumOf lines lbl = none) :
    (renumberFootnotes draws (famDoc crlf lines)).content = famResult crlf lines ∧
    FLine.defn ind lbl ws t0 tps ∈ keptLines (famNumOf lines) lines ∧
    famBodyLine (famNumOf lines) (FLine.defn ind lbl ws t0 tps) =
      some (ind ++ mkRef lbl ++ ':' :: (ws ++ refsStr t0
        (tps.map fun p => (mapLbl (famNumOf lines) p.1, p.2)))) ∧
    (tps = [] → famBodyLine (famNumOf lines) (FLine.defn ind lbl ws t0 tps) =
      some (flineStr (FLine.defn ind lbl ws t0 tps))) := by
  refine ⟨?_, ?_, ?_, ?_⟩
  · rw [renumber_famDoc crlf lines draws hok hne hdr hcr]
  · exact List.mem_filter.mpr ⟨hmem, by simp [isLiveDef, horph]⟩
  · simp [famBodyLine, horph]
  · intro ht
    subst ht
    simp [famBodyLine, horph, flineStr]

/-- C4 (witness): the orphan `[^o]: see [^x]` stays in the body of
`a[^x]` + blank + orphan; its label keeps the name `o`. -/
theorem orphan_kept_in_place_witness :
    famOKB [FLine.norm (lit "a") [(lit "x", [])], FLine.norm [] [],
      FLine.defn [] (lit "o") (lit " ") (lit "see ") [(lit "x", [])]] = true ∧
    allRefs [FLine.norm (lit "a") [(lit "x", [])], FLine.norm [] [],
      FLine.defn [] (lit "o") (lit " ") (lit "see ") [(lit "x", [])]] ≠ [] ∧
    drawsOK (dedupFirst (allRefs [FLine.norm (lit "a") [(lit "x", [])], FLine.norm [] [],
        FLine.defn [] (lit "o") (lit " ") (lit "see ") [(lit "x", [])]])).length
      (allRefs [FLine.norm (lit "a") [(lit "x", [])], FLine.norm [] [],
        FLine.defn [] (lit "o") (lit " ") (lit "see ") [(lit "x", [])]]) stdDraws ∧
    (false = true → 2 ≤ [FLine.norm (lit "a") [(lit "x", [])], FLine.norm [] [],
      FLine.defn [] (lit "o") (lit " ") (lit "see ") [(lit "x", [])]].length) ∧
    FLine.defn [] (lit "o") (lit " ") (lit "see ") [(lit "x", [])] ∈
      [FLine.norm (lit "a") [(lit "x", [])], FLine.norm [] [],
        FLine.defn [] (lit "o") (lit " ") (lit "see ") [(lit "x", [])]] ∧
    famNumOf [FLine.norm (lit "a") [(lit "x", [])], FLine.norm [] [],
      FLine.defn [] (lit "o") (lit " ") (lit "see ") [(lit "x", [])]] (lit "o") = none ∧
    ((renumberFootnotes stdDraws (famDoc false
        [FLine.norm (lit "a") [(lit "x", [])], FLine.norm [] [],
          FLine.defn [] (lit "o") (lit " ") (lit "see ") [(lit "x", [])]])).content =
      famResult false [FLine.norm (lit "a") [(lit "x", [])], FLine.norm [] [],
        FLine.defn [] (lit "o") (lit " ") (lit "see ") [(lit "x", [])]] ∧
    FLine.defn [] (lit "o") (lit " ") (lit "see ") [(lit "x", [])] ∈
      keptLines (famNumOf [FLine.norm (lit "a") [(lit "x", [])], FLine.norm [] [],
        FLine.defn [] (lit "o") (lit " ") (lit "see ") [(lit "x", [])]])
      [FLine.norm (lit "a") [(lit "x", [])], FLine.norm [] [],
        FLine.defn [] (lit "o") (lit " ") (lit "see ") [(lit "x", [])]] ∧
    famBodyLine (famNumOf [FLine.norm (lit "a") [(lit "x", [])], FLine.norm [] [],
        FLine.defn [] (lit "o") (lit " ") (lit "see ") [(lit "x", [])]])
      (FLine.defn [] (lit "o") (lit " ") (lit "see ") [(lit "x", [])]) =
      some ([] ++ mkRef (lit "o") ++ ':' :: (lit " " ++ refsStr (lit "see ")
        ([(lit "x", [])].map fun p => (mapLbl (famNumOf
          [FLine.norm (lit "a") [(lit "x", [])], FLine.norm [] [],
            FLine.defn [] (lit "o") (lit " ") (lit "see ") [(lit "x", [])]]) p.1, p.2)))) ∧
    ([(lit "x", [])] = ([] : List (List Char × List Char)) →
      famBodyLine (famNumOf [FLine.norm (lit "a") [(lit "x", [])], FLine.norm [] [],
          FLine.defn [] (lit "o") (lit " ") (lit "see ") [(lit "x", [])]])
        (FLine.defn [] (lit "o") (lit " ") (lit "see ") [(lit "x", [])]) =
        some (flineStr (FLine.defn [] (lit "o") (lit " ") (lit "see ") [(lit "x", [])])))) :=
  ⟨by decide, by decide, by decide, by decide, by decide, by decide,
   orphan_kept_in_place false
     [FLine.norm (lit "a") [(lit "x", [])], FLine.norm [] [],
       FLine.defn [] (lit "o") (lit " ") (lit "see ") [(lit "x", [])]]
     stdDraws [] (lit "o") (lit " ") (lit "see ") [(lit "x", [])]
     (by decide) (by decide) (by decide) (by decide) (by decide) (by decide)⟩

/-- C5 (counterexample): the trailing text of a live definition is not
preserved verbatim: the whitespace between the colon and the text is
consumed by the definition pattern and reassembled as a single space, so
`[^1]:   hi` becomes `[^1]: hi` and the run reports a change on an
otherwise canonical document. -/
theorem liveDef_ws_normalized_cx :
    (renumberFootnotes stdDraws (lit "a[^1]\n\n[^1]:   hi")).content =
      lit "a[^1]\n\n[^1]: hi" ∧
    (renumberFootnotes stdDraws (lit "a[^1]\n\n[^1]:   hi")).changed = true := by
  decide

/-- C5 (amended): a live definition is emitted as its original
indentation, the rewritten label, a colon and a single space, and then
the trailing text that followed the whitespace after the colon, verbatim
(the whitespace run after the colon is normalized to one space; the rest
of the physical line is untouched). -/
theorem liveDef_rewrite_shape (crlf : Bool) (lines : List FLine)
    (draws : Nat → List Char) (ind lbl ws t0 : List Char)
    (tps : List (List Char × List Char)) (n : Nat)
    (hok : famOKB lines = true) (hne : allRefs lines ≠ [])
    (hdr : drawsOK (dedupFirst (allRefs lines)).length (allRefs lines) draws)
    (hcr : crlf = true → 2 ≤ lines.length)
    (hmem : FLine.defn ind lbl ws t0 tps ∈ lines)
    (hn : famNumOf lines lbl = some n) :
    (renumberFootnotes draws (famDoc crlf lines)).content = famResult crlf lines ∧
    infixOf (ind ++ mkRef (natToStr n) ++ ':' :: ' ' :: refsStr t0 tps)
      (renumberFootnotes draws (famDoc crlf lines)).content = true := by
  rw [renumber_famDoc crlf lines draws hok hne hdr hcr]
  exact ⟨rfl, defLine_infix_famResult crlf hmem hn⟩

/-- C5 (witness): the live definition `[^q]:   hi` (three spaces after
the colon) is emitted as `[^1]: hi` with its text `hi` verbatim. -/
theorem liveDef_rewrite_shape_witness :
    famOKB [FLine.norm (lit "a") [(lit "q", [])], FLine.norm [] [],
      FLine.defn [] (lit "q") (lit "   ") (lit "hi") []] = true ∧
    allRefs [FLine.norm (lit "a") [(lit "q", [])], FLine.norm [] [],
      FLine.defn [] (lit "q") (lit "   ") (lit "hi") []] ≠ [] ∧
    drawsOK (dedupFirst (allRefs [FLine.norm (lit "a") [(lit "q", [])], FLine.norm [] [],
        FLine.defn [] (lit "q") (lit "   ") (lit "hi") []])).length
      (allRefs [FLine.norm (lit "a") [(lit "q", [])], FLine.norm [] [],
        FLine.defn [] (lit "q") (lit "   ") (lit "hi") []]) stdDraws ∧
    (false = true → 2 ≤ [FLine.norm (lit "a") [(lit "q", [])], FLine.norm [] [],
      FLine.defn [] (lit "q") (lit "   ") (lit "hi") []].length) ∧
    FLine.defn [] (lit "q") (lit "   ") (lit "hi") [] ∈
      [FLine.norm (lit "a") [(lit "q", [])], FLine.norm [] [],
        FLine.defn [] (lit "q") (lit "   ") (lit "hi") []] ∧
    famNumOf [FLine.norm (lit "a") [(lit "q", [])], FLine.norm [] [],
      FLine.defn [] (lit "q") (lit "   ") (lit "hi") []] (lit "q") = some 1 ∧
    ((renumberFootnotes stdDraws (famDoc false
        [FLine.norm (lit "a") [(lit "q", [])], FLine.norm [] [],
          FLine.defn [] (lit "q") (lit "   ") (lit "hi") []])).content =
      famResult false [FLine.norm (lit "a") [(lit "q", [])], FLine.norm [] [],
        FLine.defn [] (lit "q") (lit "   ") (lit "hi") []] ∧
    infixOf ([] ++ mkRef (natToStr 1) ++ ':' :: ' ' :: refsStr (lit "hi") [])
      (renumberFootnotes stdDraws (famDoc false
        [FLine.norm (lit "a") [(lit "q", [])], FLine.norm [] [],
          FLine.defn [] (lit "q") (lit "   ") (lit "hi") []])).content = true) :=
  ⟨by decide, by decide, by decide, by decide, by decide, by decide,
   liveDef_rewrite_shape false
     [FLine.norm (lit "a") [(lit "q", [])], FLine.norm [] [],
       FLine.defn [] (lit "q") (lit "   ") (lit "hi") []]
     stdDraws [] (lit "q") (lit "   ") (lit "hi") [] 1
     (by decide) (by decide) (by decide) (by decide) (by decide) (by decide)⟩

/-- C6: the spec says more than one existing blank line between body and
definitions is preserved; in the code the removed definition line takes
one separator with it, so two blank lines collapse to one (the code
comment announces "preserve existing spacing", so this is a code bug, and
the repository's spacing tests do not catch it because their inputs have
no references and take the early return). -/
theorem spacing_collapses_cx :
    (renumberFootnotes stdDraws (lit "a[^1]\n\n\n[^1]: x")).content =
      lit "a[^1]\n\n[^1]: x" ∧
    (renumberFootnotes stdDraws (lit "a[^1]\n\n\n[^1]: x")).changed = true := by
  decide

/-- C7: on a wellformed structured document the chosen separator is
`\r\n` exactly when the document contains `\r\n`, and the whole output is
`famResult`, every inserted separator of which is `famSep crlf` — the
line-joining separator, the blank-line padding and the separators of the
appended definition block alike. -/
theorem line_ending_selection (crlf : Bool) (lines : List FLine)
    (draws : Nat → List Char)
    (hok : famOKB lines = true) (hne : allRefs lines ≠ [])
    (hdr : drawsOK (dedupFirst (allRefs lines)).length (allRefs lines) draws)
    (hcr : crlf = true → 2 ≤ lines.length) :
    crlfInfix (famDoc crlf lines) = crlf ∧
    (renumberFootnotes draws (famDoc crlf lines)).content = famResult crlf lines := by
  refine ⟨crlfInfix_famDoc hok hcr, ?_⟩
  rw [renumber_famDoc crlf lines draws hok hne hdr hcr]

/-- C7 (witness): a CRLF document `a[^x]\r\n[^x]: X`; the output
`a[^1]\r\n\r\n[^1]: X` uses CRLF for the inserted separators. -/
theorem line_ending_selection_witness :
    famOKB [FLine.norm (lit "a") [(lit "x", [])],
      FLine.defn [] (lit "x") (lit " ") (lit "X") []] = true ∧
    allRefs [FLine.norm (lit "a") [(lit "x", [])],
      FLine.defn [] (lit "x") (lit " ") (lit "X") []] ≠ [] ∧
    drawsOK (dedupFirst (allRefs [FLine.norm (lit "a") [(lit "x", [])],
        FLine.defn [] (lit "x") (lit " ") (lit "X") []])).length
      (allRefs [FLine.norm (lit "a") [(lit "x", [])],
        FLine.defn [] (lit "x") (lit " ") (lit "X") []]) stdDraws ∧
    (true = true → 2 ≤ [FLine.norm (lit "a") [(lit "x", [])],
      FLine.defn [] (lit "x") (lit " ") (lit "X") []].length) ∧
    (crlfInfix (famDoc true [FLine.norm (lit "a") [(lit "x", [])],
        FLine.defn [] (lit "x") (lit " ") (lit "X") []]) = true ∧
    (renumberFootnotes stdDraws (famDoc true [FLine.norm (lit "a") [(lit "x", [])],
        FLine.defn [] (lit "x") (lit " ") (lit "X") []])).content =
      famResult true [FLine.norm (lit "a") [(lit "x", [])],
        FLine.defn [] (lit "x") (lit " ") (lit "X") []]) :=
  ⟨by decide, by decide, by decide, by decide,
   line_ending_selection true
     [FLine.norm (lit "a") [(lit "x", [])],
       FLine.defn [] (lit "x") (lit " ") (lit "X") []]
     stdDraws (by decide) (by decide) (by decide) (by decide)⟩

/-- C8: the engine is a total function (its Lean embedding is a total
`def`), and for any input in which the reference scan finds no label —
the empty document included — it returns the input unchanged with
`changed = false` and `footnoteCount = 0`. -/
theorem no_refs_identity (draws : Nat → List Char) (content : List Char)
    (h : findRefs content = []) :
    renumberFootnotes draws content = ⟨content, false, 0⟩ := by
  cases content with
  | nil => rfl
  | cons c rest =>
    unfold renumberFootnotes
    rw [if_neg (by simp), h]
    simp [dedupFirst]

/-- C8 (witness): plain text without footnote syntax passes through. -/
theorem no_refs_identity_witness :
    findRefs (lit "plain text, a [bracket] and a lone [^") = [] ∧
    renumberFootnotes stdDraws (lit "plain text, a [bracket] and a lone [^") =
      ⟨lit "plain text, a [bracket] and a lone [^", false, 0⟩ :=
  ⟨by decide,
   no_refs_identity stdDraws (lit "plain text, a [bracket] and a lone [^") (by decide)⟩

/-- C9 (counterexample): the output is not a pure function of the
document alone — it also depends on the random placeholder draws.  On a
document that already contains the text of a possible placeholder as a
label, colliding draws alias two labels into one number, while fresh
draws keep them apart. -/
theorem draws_dependent_cx :
    (renumberFootnotes stdDraws (lit "a[^x] [^__TEMP_FOOTNOTE_d0__]")).content =
      lit "a[^2] [^2]" ∧
    (renumberFootnotes (fun i => stdDraws (i + 5))
      (lit "a[^x] [^__TEMP_FOOTNOTE_d0__]")).content = lit "a[^1] [^2]" ∧
    (renumberFootnotes stdDraws (lit "a[^x] [^__TEMP_FOOTNOTE_d0__]")).content ≠
      (renumberFootnotes (fun i => stdDraws (i + 5))
        (lit "a[^x] [^__TEMP_FOOTNOTE_d0__]")).content := by
  decide

/-- C9 (amended): on documents none of whose labels collide with the
drawn placeholders, the result does not depend on the draws: any two
fresh, distinct draw supplies give byte-identical results (content,
changed and footnoteCount), so the engine is deterministic up to the
freshness of `Math.random`. -/
theorem draws_independent_output (crlf : Bool) (lines : List FLine)
    (draws1 draws2 : Nat → List Char)
    (hok : famOKB lines = true) (hne : allRefs lines ≠ [])
    (hdr1 : drawsOK (dedupFirst (allRefs lines)).length (allRefs lines) draws1)
    (hdr2 : drawsOK (dedupFirst (allRefs lines)).length (allRefs lines) draws2)
    (hcr : crlf = true → 2 ≤ lines.length) :
    renumberFootnotes draws1 (famDoc crlf lines) =
      renumberFootnotes draws2 (famDoc crlf lines) := by
  rw [renumber_famDoc crlf lines draws1 hok hne hdr1 hcr,
    renumber_famDoc crlf lines draws2 hok hne hdr2 hcr]

/-- C9 (witness): two different draw supplies on `n[^y]` + definition. -/
theorem draws_independent_output_witness :
    famOKB [FLine.norm (lit "n") [(lit "y", [])],
      FLine.defn [] (lit "y") (lit " ") (lit "Y") []] = true ∧
    allRefs [FLine.norm (lit "n") [(lit "y", [])],
      FLine.defn [] (lit "y") (lit " ") (lit "Y") []] ≠ [] ∧
    drawsOK (dedupFirst (allRefs [FLine.norm (lit "n") [(lit "y", [])],
        FLine.defn [] (lit "y") (lit " ") (lit "Y") []])).length
      (allRefs [FLine.norm (lit "n") [(lit "y", [])],
        FLine.defn [] (lit "y") (lit " ") (lit "Y") []]) stdDraws ∧
    drawsOK (dedupFirst (allRefs [FLine.norm (lit "n") [(lit "y", [])],
        FLine.defn [] (lit "y") (lit " ") (lit "Y") []])).length
      (allRefs [FLine.norm (lit "n") [(lit "y", [])],
        FLine.defn [] (lit "y") (lit " ") (lit "Y") []])
      (fun i => stdDraws (i + 5)) ∧
    (false = true → 2 ≤ [FLine.norm (lit "n") [(lit "y", [])],
      FLine.defn [] (lit "y") (lit " ") (lit "Y") []].length) ∧
    renumberFootnotes stdDraws (famDoc false [FLine.norm (lit "n") [(lit "y", [])],
        FLine.defn [] (lit "y") (lit " ") (lit "Y") []]) =
      renumberFootnotes (fun i => stdDraws (i + 5))
        (famDoc false [FLine.norm (lit "n") [(lit "y", [])],
          FLine.defn [] (lit "y") (lit " ") (lit "Y") []]) :=
  ⟨by decide, by decide, by decide, by decide, by decide,
   draws_independent_output false
     [FLine.norm (lit "n") [(lit "y", [])],
       FLine.defn [] (lit "y") (lit " ") (lit "Y") []]
     stdDraws (fun i => stdDraws (i + 5))
     (by decide) (by decide) (by decide) (by decide) (by decide)⟩

/-- C10: a reference occurrence inside a live definition's trailing text
is scanned like any other — its label joins the ordering and the count —
yet the emitted definition line reproduces the original trailing text
`refsStr t0 tps` with its original labels, because live definitions are
reassembled from the collected original text rather than passed through
the substitution passes. -/
theorem defText_refs_counted_not_rewritten (crlf : Bool) (lines : List FLine)
    (draws : Nat → List Char) (ind lbl ws t0 : List Char)
    (tps : List (List Char × List Char)) (n : Nat)
    (hok : famOKB lines = true) (hne : allRefs lines ≠ [])
    (hdr : drawsOK (dedupFirst (allRefs lines)).length (allRefs lines) draws)
    (hcr : crlf = true → 2 ≤ lines.length)
    (hmem : FLine.defn ind lbl ws t0 tps ∈ lines)
    (hn : famNumOf lines lbl = some n) :
    (renumberFootnotes draws (famDoc crlf lines)).footnoteCount =
      (dedupFirst (allRefs lines)).length ∧
    (∀ p ∈ tps, p.1 ∈ allRefs lines) ∧
    (renumberFootnotes draws (famDoc crlf lines)).content = famResult crlf lines ∧
    infixOf (ind ++ mkRef (natToStr n) ++ ':' :: ' ' :: refsStr t0 tps)
      (renumberFootnotes draws (famDoc crlf lines)).content = true := by
  rw [renumber_famDoc crlf lines draws hok hne hdr hcr]
  refine ⟨rfl, ?_, rfl, defLine_infix_famResult crlf hmem hn⟩
  intro p hp
  exact mem_allRefs_of_line hmem (List.mem_map_of_mem Prod.fst hp)

/-- C10 (witness): in `x[^a]` + `[^a]: see [^b]` + `[^b]: B` the label
`b` first appears inside `a`'s definition text; the count is 2 and the
output contains `[^1]: see [^b]` verbatim. -/
theorem defText_refs_counted_not_rewritten_witness :
    famOKB [FLine.norm (lit "x") [(lit "a", [])], FLine.norm [] [],
      FLine.defn [] (lit "a") (lit " ") (lit "see ") [(lit "b", [])], FLine.norm [] [],
      FLine.defn [] (lit "b") (lit " ") (lit "B") []] = true ∧
    allRefs [FLine.norm (lit "x") [(lit "a", [])], FLine.norm [] [],
      FLine.defn [] (lit "a") (lit " ") (lit "see ") [(lit "b", [])], FLine.norm [] [],
      FLine.defn [] (lit "b") (lit " ") (lit "B") []] ≠ [] ∧
    drawsOK (dedupFirst (allRefs [FLine.norm (lit "x") [(lit "a", [])], FLine.norm [] [],
        FLine.defn [] (lit "a") (lit " ") (lit "see ") [(lit "b", [])], FLine.norm [] [],
        FLine.defn [] (lit "b") (lit " ") (lit "B") []])).length
      (allRefs [FLine.norm (lit "x") [(lit "a", [])], FLine.norm [] [],
        FLine.defn [] (lit "a") (lit " ") (lit "see ") [(lit "b", [])], FLine.norm [] [],
        FLine.defn [] (lit "b") (lit " ") (lit "B") []]) stdDraws ∧
    (false = true → 2 ≤ [FLine.norm (lit "x") [(lit "a", [])], FLine.norm [] [],
      FLine.defn [] (lit "a") (lit " ") (lit "see ") [(lit "b", [])], FLine.norm [] [],
      FLine.defn [] (lit "b") (lit " ") (lit "B") []].length) ∧
    FLine.defn [] (lit "a") (lit " ") (lit "see ") [(lit "b", [])] ∈
      [FLine.norm (lit "x") [(lit "a", [])], FLine.norm [] [],
        FLine.defn [] (lit "a") (lit " ") (lit "see ") [(lit "b", [])], FLine.norm [] [],
        FLine.defn [] (lit "b") (lit " ") (lit "B") []] ∧
    famNumOf [FLine.norm (lit "x") [(lit "a", [])], FLine.norm [] [],
      FLine.defn [] (lit "a") (lit " ") (lit "see ") [(lit "b", [])], FLine.norm [] [],
      FLine.defn [] (lit "b") (lit " ") (lit "B") []] (lit "a") = some 1 ∧
    ((renumberFootnotes stdDraws (famDoc false
        [FLine.norm (lit "x") [(lit "a", [])], FLine.norm [] [],
          FLine.defn [] (lit "a") (lit " ") (lit "see ") [(lit "b", [])], FLine.norm [] [],
          FLine.defn [] (lit "b") (lit " ") (lit "B") []])).footnoteCount =
      (dedupFirst (allRefs [FLine.norm (lit "x") [(lit "a", [])], FLine.norm [] [],
        FLine.defn [] (lit "a") (lit " ") (lit "see ") [(lit "b", [])], FLine.norm [] [],
        FLine.defn [] (lit "b") (lit " ") (lit "B") []])).length ∧
    (∀ p ∈ [(lit "b", ([] : List Char))], p.1 ∈
      allRefs [FLine.norm (lit "x") [(lit "a", [])], FLine.norm [] [],
        FLine.defn [] (lit "a") (lit " ") (lit "see ") [(lit "b", [])], FLine.norm [] [],
        FLine.defn [] (lit "b") (lit " ") (lit "B") []]) ∧
    (renumberFootnotes stdDraws (famDoc false
        [FLine.norm (lit "x") [(lit "a", [])], FLine.norm [] [],
          FLine.defn [] (lit "a") (lit " ") (lit "see ") [(lit "b", [])], FLine.norm [] [],
          FLine.defn [] (lit "b") (lit " ") (lit "B") []])).content =
      famResult false [FLine.norm (lit "x") [(lit "a", [])], FLine.norm [] [],
        FLine.defn [] (lit "a") (lit " ") (lit "see ") [(lit "b", [])], FLine.norm [] [],
        FLine.defn [] (lit "b") (lit " ") (lit "B") []] ∧
    infixOf ([] ++ mkRef (natToStr 1) ++ ':' :: ' ' :: refsStr (lit "see ") [(lit "b", [])])
      (renumberFootnotes stdDraws (famDoc false
        [FLine.norm (lit "x") [(lit "a", [])], FLine.norm [] [],
          FLine.defn [] (lit "a") (lit " ") (lit "see ") [(lit "b", [])], FLine.norm [] [],
          FLine.defn [] (lit "b") (lit " ") (lit "B") []])).content = true) :=
  ⟨by decide, by decide, by decide, by decide, by decide, by decide,
   defText_refs_counted_not_rewritten false
     [FLine.norm (lit "x") [(lit "a", [])], FLine.norm [] [],
       FLine.defn [] (lit "a") (lit " ") (lit "see ") [(lit "b", [])], FLine.norm [] [],
       FLine.defn [] (lit "b") (lit " ") (lit "B") []]
     stdDraws [] (lit "a") (lit " ") (lit "see ") [(lit "b", [])] 1
     (by decide) (by decide) (by decide) (by decide) (by decide) (by decide)⟩
